import Mathlib

/-!
# Verification of the SyntaxTree bracket-notation compiler and layout engine

A shallow embedding of the tokenizer (`tokenizer.js`), parser (`parser.js`),
structural pre-checks (`syntaxtree.js`) and the layout / arrow-routing engine
(`tree.js`) of the repository, together with theorems settling the claims of
the specification.

Conventions of the embedding:
* JavaScript numbers are modelled by `ℚ` (geometry), `Int`/`Nat` (indices,
  counters) and `WithTop ℤ` (drawable depths, where `⊤` models the `Infinity`
  produced by `Math.min()` of an empty argument list).
* A JS `throw` is modelled by `Except.error` carrying the thrown string; an
  access `xs[i].field` on an out-of-bounds index (JS `undefined.field`,
  a TypeError) is modelled by `Except.error "TypeError"`.
* JS string truthiness (`null`/`""` falsy) is modelled by `jsTruthyOpt`.
* The JS regular expressions appearing in the source are modelled character
  by character; note that in JavaScript `.` does not match line terminators
  and `$` (without the `m` flag) anchors at the end of the string.
-/

namespace STree

/-- Characters matched by `.` in a JavaScript regular expression (any char
except the line terminators LF, CR, U+2028, U+2029). -/
def jsDot (c : Char) : Bool :=
  !(c = '\n' || c = '\r' || c.val = 0x2028 || c.val = 0x2029)

/-- Characters matched by `\s` in a JavaScript regular expression
(whitespace and line terminators). -/
def jsWs (c : Char) : Bool :=
  c = ' ' || c = '\t' || c = '\n' || c = '\r' || c.val = 11 || c.val = 12 ||
  c.val = 0xa0 || c.val = 0x1680 || (0x2000 ≤ c.val && c.val ≤ 0x200a) ||
  c.val = 0x2028 || c.val = 0x2029 || c.val = 0x202f || c.val = 0x205f ||
  c.val = 0x3000 || c.val = 0xfeff

/-- JS `String.prototype.trim`: strip leading and trailing whitespace /
line terminators. -/
def jsTrim (s : String) : String :=
  ⟨((s.data.dropWhile jsWs).reverse.dropWhile jsWs).reverse⟩

/-- JS truthiness of an optional string: `null` and `""` are falsy. -/
def jsTruthyOpt : Option String → Bool
  | none => false
  | some s => s ≠ ""

/-- Test of `/^\+/`: the string starts with a `+`. -/
def startsWithPlus (s : String) : Bool :=
  match s.data with
  | '+' :: _ => true
  | _ => false

/-- Test of `/^\{.*\}$/`: the whole string is `{`, then characters matched
by `.`, then `}`. -/
def jsTestFullBrace (s : String) : Bool :=
  match s.data with
  | '{' :: rest =>
    decide (1 ≤ rest.length) && rest.getLast? = some '}' &&
      (rest.take (rest.length - 1)).all jsDot
  | _ => false

/-- Whether a character list matches `\s*\{.*\}$` in full: a whitespace run,
then `{`, then `.`-characters, then a final `}` ending the string.  Since a
whitespace character is never `{`, the `\s*` part always consumes exactly
the maximal whitespace run here. -/
def wsBraceTail (cs : List Char) : Bool :=
  match cs.dropWhile jsWs with
  | '{' :: rest =>
    decide (1 ≤ rest.length) && rest.getLast? = some '}' &&
      (rest.take (rest.length - 1)).all jsDot
  | _ => false

/-- Search, downwards from `k`, for the largest prefix length `i ≤ k` such
that the first `i` characters are all matched by `.` and the remainder
matches `\s*\{.*\}$`.  This implements the backtracking of the greedy
group `(.*)` in `/^(.*)\s*(\{.*\})$/`. -/
def braceSplitSearch (cs : List Char) : Nat → Option Nat
  | 0 => if wsBraceTail cs then some 0 else none
  | k + 1 =>
    if (cs.take (k + 1)).all jsDot && wsBraceTail (cs.drop (k + 1)) then
      some (k + 1)
    else braceSplitSearch cs k

/-- JS `s.match(/^(.*)\s*(\{.*\})$/)`: on success returns the two capture
groups (group 1 is the greedy prefix, group 2 runs from the `{` to the
end of the string).  Returns `none` when the string does not match. -/
def jsMatchTrailingBrace (s : String) : Option (String × String) :=
  match braceSplitSearch s.data s.data.length with
  | some k => some (⟨s.data.take k⟩, ⟨(s.data.drop k).dropWhile jsWs⟩)
  | none => none

/-- JS `label.replace(/\s*\{.*\}$/, '')`: remove the leftmost (hence
longest) suffix matching `\s*\{.*\}$`; the string is unchanged when no
position matches. -/
def jsStripTrailingBrace (s : String) : String :=
  match (List.range (s.data.length + 1)).find? (fun p => wsBraceTail (s.data.drop p)) with
  | some p => ⟨s.data.take p⟩
  | none => s

/-- Splitting on `/\\n|\n/` (a literal backslash-n pair or a newline), as
used for multi-line labels. -/
def jsSplitNLAux : List Char → List Char → List String
  | [], acc => [⟨acc.reverse⟩]
  | '\\' :: 'n' :: rest, acc => ⟨acc.reverse⟩ :: jsSplitNLAux rest []
  | '\n' :: rest, acc => ⟨acc.reverse⟩ :: jsSplitNLAux rest []
  | c :: rest, acc => jsSplitNLAux rest (c :: acc)

/-- JS `String(label).split(/\\n|\n/)`. -/
def jsSplitNL (s : String) : List String := jsSplitNLAux s.data []

/-- JS `Array.prototype.join(' ')`. -/
def joinSpace : List String → String
  | [] => ""
  | [s] => s
  | s :: rest => s ++ " " ++ joinSpace rest

end STree

namespace STree

/-! ## Tokenizer (`tokenizer.js`) -/

/-- Token kinds.  `ARROW_DOTTED_TO` is the ad-hoc string kind
`'ARROW_DOTTED_TO'` emitted for `.>` (not part of the `TokenType` object in
the source, but a distinct token kind all the same). -/
inductive TokenType where
  | BRACKET_OPEN | BRACKET_CLOSE | STRING | NUMBER | QUOTED_STRING
  | SUBSCRIPT_PREFIX | SUPERSCRIPT_PREFIX
  | ARROW_TO | ARROW_FROM | ARROW_BOTH | ARROW_DOTTED_TO
deriving DecidableEq, Repr

/-- A token.  The JS `value` field holds `null`, a string or a number; it is
modelled by `value` (strings, `""` for `null`) together with `nvalue`
(the integer of a `NUMBER` token). -/
structure Token where
  type : TokenType
  value : String := ""
  nvalue : Nat := 0
deriving DecidableEq, Repr

/-- Whitespace recognized by the tokenizer:
`[' ', '\b', '\f', '\n', '\r', '\t', '\v']`. -/
def tokWs (c : Char) : Bool :=
  c = ' ' || c = '\x08' || c = '\x0c' || c = '\n' || c = '\r' || c = '\t' || c = '\x0b'

/-- Control characters: `['[', ']', '^', '_', '"']`. -/
def isControlChar (c : Char) : Bool :=
  c = '[' || c = ']' || c = '^' || c = '_' || c = '"'

/-- `isNumber`: decimal digit test. -/
def isDigitChar (c : Char) : Bool := '0' ≤ c && c ≤ '9'

/-- `skipWhitespace`: number of leading whitespace characters. -/
def skipWhitespace (cs : List Char) : Nat := (cs.takeWhile tokWs).length

/-- `parseControlCharacters`. -/
def parseControlCharacters : List Char → Option Token × Nat
  | '_' :: _ => (some ⟨.SUBSCRIPT_PREFIX, "", 0⟩, 1)
  | '^' :: _ => (some ⟨.SUPERSCRIPT_PREFIX, "", 0⟩, 1)
  | '[' :: _ => (some ⟨.BRACKET_OPEN, "", 0⟩, 1)
  | ']' :: _ => (some ⟨.BRACKET_CLOSE, "", 0⟩, 1)
  | _ => (none, 0)

/-- `parseArrows`: the two-character arrow operators. -/
def parseArrows : List Char → Option Token × Nat
  | '-' :: '>' :: _ => (some ⟨.ARROW_TO, "", 0⟩, 2)
  | '<' :: '-' :: _ => (some ⟨.ARROW_FROM, "", 0⟩, 2)
  | '<' :: '>' :: _ => (some ⟨.ARROW_BOTH, "", 0⟩, 2)
  | '.' :: '>' :: _ => (some ⟨.ARROW_DOTTED_TO, "", 0⟩, 2)
  | _ => (none, 0)

/-- Decimal value of a digit run (`parseInt`). -/
def digitsToNat (ds : List Char) : Nat :=
  ds.foldl (fun n c => n * 10 + (c.toNat - 48)) 0

/-- `parseNumber`. -/
def parseNumber (cs : List Char) : Option Token × Nat :=
  let ds := cs.takeWhile isDigitChar
  if 0 < ds.length then (some ⟨.NUMBER, "", digitsToNat ds⟩, ds.length)
  else (none, 0)

/-- `parseString`: a run of characters that are neither whitespace nor
control characters. -/
def parseUnquoted (cs : List Char) : Option Token × Nat :=
  let run := cs.takeWhile (fun c => !tokWs c && !isControlChar c)
  if 0 < run.length then (some ⟨.STRING, ⟨run⟩, 0⟩, run.length)
  else (none, 0)

/-- `parseQuotedString`: `"` then characters up to a closing `"`; throws
when the closing quote is missing. -/
def parseQuoted : List Char → Except String (Option Token × Nat)
  | '"' :: rest =>
    let inner := rest.takeWhile (· ≠ '"')
    if inner.length < rest.length then
      pure (some ⟨.QUOTED_STRING, ⟨inner⟩, 0⟩, inner.length + 2)
    else
      .error ("Unterminated quoted string. Missing \" after [" ++ (⟨'"' :: rest⟩ : String) ++ "]")
  | _ => pure (none, 0)

/-- One iteration of the tokenizer's `while` loop: run the six parsers in
order on the suffix at `offset`, pushing tokens and advancing, with the
source's early `break` as soon as `offset` reaches the end of input.
Returns the tokens pushed (in order) and the new offset. -/
def runParsers (input : List Char) (offset0 : Nat) : Except String (List Token × Nat) := do
  let len := input.length
  -- skipWhitespace
  let offset := offset0 + skipWhitespace (input.drop offset0)
  if len ≤ offset then return ([], offset)
  -- parseControlCharacters
  let (t1, c1) := parseControlCharacters (input.drop offset)
  let offset := offset + c1
  let acc := t1.toList
  if len ≤ offset then return (acc, offset)
  -- parseArrows
  let (t2, c2) := parseArrows (input.drop offset)
  let offset := offset + c2
  let acc := acc ++ t2.toList
  if len ≤ offset then return (acc, offset)
  -- parseNumber
  let (t3, c3) := parseNumber (input.drop offset)
  let offset := offset + c3
  let acc := acc ++ t3.toList
  if len ≤ offset then return (acc, offset)
  -- parseString
  let (t4, c4) := parseUnquoted (input.drop offset)
  let offset := offset + c4
  let acc := acc ++ t4.toList
  if len ≤ offset then return (acc, offset)
  -- parseQuotedString
  let (t5, c5) ← parseQuoted (input.drop offset)
  let offset := offset + c5
  let acc := acc ++ t5.toList
  return (acc, offset)

/-- The tokenizer's main loop.  The source throws when an iteration makes no
progress; every iteration only ever advances the offset, so the test
`offset === now_serving` is modelled as `offset' ≤ offset`.  The fuel
argument (supplied as `input.length + 1` by `tokenize`) only serves to make
the recursion structural: an iteration either advances the offset by at
least one or stops, so the fuel branch is unreachable. -/
def tokenizeLoop : Nat → List Char → Nat → List Token → Except String (List Token)
  | 0, _, _, _ => .error "fuel exhausted"
  | fuel + 1, input, offset, acc =>
    if offset < input.length then
      match runParsers input offset with
      | .error e => .error e
      | .ok (ts, offset') =>
        if offset < offset' then
          tokenizeLoop fuel input offset' (acc ++ ts)
        else
          .error ("Unable to parse [" ++ (⟨input.drop offset⟩ : String) ++ "] ...")
    else pure acc

/-- `tokenize`. -/
def tokenize (s : String) : Except String (List Token) :=
  tokenizeLoop (s.data.length + 1) s.data 0 []

end STree

namespace STree

/-! ## Parser (`parser.js`) -/

/-- An arrow directive recorded on a leaf: direction flags (the `ends`
object), 1-based target leaf index, optional label, dotted flag. -/
structure ArrowDir where
  endsTo : Bool
  endsFrom : Bool
  target : Nat
  label : Option String := none
  dotted : Bool := false
deriving DecidableEq, Repr

/-- The parsed syntax tree: the tagged union Root / Node / Value. -/
inductive SNode where
  | root (values : List SNode)
  | node (label : String) (subscript superscript : Option String)
      (values : List SNode) (features : List String) (caseFeature : Option String)
  | value (label : String) (subscript superscript : Option String)
      (arrows : List ArrowDir) (caseFeature : Option String)

/-- The mutable record built up by `parseNode` before it is returned as a
`NODE`. -/
structure NodeData where
  label : String := ""
  subscript : Option String := none
  superscript : Option String := none
  values : List SNode := []
  features : List String := []
  caseFeature : Option String := none

/-- Bound extraction from an in-range list access. -/
theorem getElem?_some_lt {α : Type} {l : List α} {i : Nat} {a : α}
    (h : l[i]? = some a) : i < l.length := by
  rcases Nat.lt_or_ge i l.length with h1 | h1
  · exact h1
  · rw [List.getElem?_eq_none h1] at h
    cases h

/-- The run of adjacent `STRING` token values
(the `while` loop assembling a multi-word label in `parseValue`),
operating on the token suffix starting at the current index. -/
def stringRun : List Token → List String
  | t :: rest => if t.type = .STRING then t.value :: stringRun rest else []
  | [] => []

/-- The token kinds accepted as arrow operators (`arrowTypes`). -/
def isArrowType (t : TokenType) : Bool :=
  t = .ARROW_TO || t = .ARROW_FROM || t = .ARROW_BOTH || t = .ARROW_DOTTED_TO

/-- The arrow-directive loops of `parseValue` (parser.js lines 129-176),
operating on `rest`, the token suffix starting at index `cur` (the index is
carried for the error message).  `afterComma = false` models the top of the
outer `while` (which requires `current < tokens.length - 1`, i.e. at least
two remaining tokens, before looking at the token); `afterComma = true`
models the top of the inner `while` reached right after skipping a comma,
which reads `tokens[current].type` without a bounds check - an
out-of-range read is the modelled TypeError, also used in the unreachable
out-of-range case of the outer loop.  After a directive without a trailing
label, the comma test `tokens[current].type === STRING && value === ','`
always fails (a `STRING` there would have been consumed as the label), so
control returns to the top of the outer loop directly.
The fuel argument only makes the recursion structural: every iteration
shortens the suffix, so with any fuel exceeding the suffix length (as
supplied by `parseValue`) the fuel branch is unreachable. -/
def arrowGo : Nat → Nat → List Token → List ArrowDir → Bool →
    Except String (Nat × List ArrowDir)
  | 0, _, _, _, _ => .error "fuel exhausted"
  | fuel + 1, cur, rest, acc, afterComma =>
  if !afterComma && !(decide (2 ≤ rest.length)) then pure (cur, acc)
  else
    match rest with
    | [] => .error "TypeError"
    | t :: rest1 =>
      if isArrowType t.type then
        let endsTo := t.type = .ARROW_TO || t.type = .ARROW_BOTH || t.type = .ARROW_DOTTED_TO
        let endsFrom := t.type = .ARROW_FROM || t.type = .ARROW_BOTH
        let dotted := t.type = .ARROW_DOTTED_TO
        match rest1 with
        | [] => .error "TypeError" -- `tokens[++current]` ran past the end
        | target :: rest2 =>
          if target.type ≠ .NUMBER then
            .error (toString ((cur : Int) + 1) ++ ": Expected column number after arrow")
          else
            match rest2 with
            | u :: rest3 =>
              if u.type = .STRING ∨ u.type = .QUOTED_STRING then
                -- optional label consumed; then the comma test
                let acc' := acc ++ [⟨endsTo, endsFrom, target.nvalue, some u.value, dotted⟩]
                match rest3 with
                | c :: rest4 =>
                  if c.type = .STRING ∧ c.value = "," then arrowGo fuel (cur + 4) rest4 acc' true
                  else arrowGo fuel (cur + 3) rest3 acc' false
                | [] => arrowGo fuel (cur + 3) [] acc' false
              else
                arrowGo fuel (cur + 2) rest2 (acc ++ [⟨endsTo, endsFrom, target.nvalue, none, dotted⟩]) false
            | [] =>
              arrowGo fuel (cur + 2) [] (acc ++ [⟨endsTo, endsFrom, target.nvalue, none, dotted⟩]) false
      else pure (cur, acc)

/-- `parseValue`: assemble a (possibly multi-word) label, an optional
sub/superscript, the arrow directives, and the full-brace case feature. -/
def parseValue (tokens : List Token) (current : Nat) : Except String (Nat × SNode) :=
  match tokens[current]? with
  | none => .error "TypeError"
  | some t0 =>
    -- Assemble multi-string or quoted string label
    let run := stringRun (tokens.drop current)
    let (label, cur1) :=
      if t0.type = .STRING then (joinSpace run, current + run.length)
      else (t0.value, current + 1)
    -- Check for sub/superscript
    let afterSub : Except String (Nat × Option String × Option String) :=
      if cur1 < tokens.length - 1 then
        match tokens[cur1]? with
        | none => .error "TypeError" -- unreachable: cur1 < tokens.length
        | some t1 =>
          if t1.type = .SUBSCRIPT_PREFIX ∨ t1.type = .SUPERSCRIPT_PREFIX then
            match tokens[cur1 + 1]? with
            | none => .error "TypeError" -- unreachable: cur1 + 1 < tokens.length
            | some sub_token =>
              if sub_token.type ≠ .STRING ∧ sub_token.type ≠ .QUOTED_STRING then
                .error (toString ((cur1 : Int) + 1) ++ ": Expected subscript string after _/^")
              else if t1.type = .SUPERSCRIPT_PREFIX then
                pure (cur1 + 2, none, some sub_token.value)
              else pure (cur1 + 2, some sub_token.value, none)
          else pure (cur1, none, none)
      else pure (cur1, none, none)
    match afterSub with
    | .error e => .error e
    | .ok (cur2, sub, sup) =>
      -- Parse multiple arrows separated by commas
      match arrowGo (tokens.length + 1) cur2 (tokens.drop cur2) [] false with
      | .error e => .error e
      | .ok (cur3, arrows) =>
        -- Check for case feature in value (for leaf nodes)
        let caseFeature := if jsTestFullBrace label then some label else none
        pure (cur3, .value label sub sup arrows caseFeature)

/-- The child-classification block of `parseNode`'s loop (parser.js lines
61-90): feature leaves go to `features`; a bare case-marker leaf is
attached to the previous sibling (splitting a trailing `{...}` off the
previous label when present); any other child has a trailing `{...}` in
its own label split into `caseFeature` and is appended to `values`. -/
def classify (st : NodeData) (v : SNode) : NodeData :=
  match v with
  | .value l sub sup arr cf =>
    if startsWithPlus l then { st with features := st.features ++ [l] }
    else if jsTestFullBrace l then
      match st.values.getLast? with
      | none => st
      | some prev =>
        match prev with
        | .value pl psub psup parr pcf =>
          if jsTruthyOpt pcf then st
          else
            let prev' :=
              match jsMatchTrailingBrace pl with
              | some (g1, g2) => SNode.value (jsTrim g1) psub psup parr (some g2)
              | none => SNode.value pl psub psup parr (some l)
            { st with values := st.values.dropLast ++ [prev'] }
        | _ => st -- previous sibling is not a VALUE: nothing is attached
    else
      match jsMatchTrailingBrace l with
      | some (g1, g2) => { st with values := st.values ++ [.value (jsTrim g1) sub sup arr (some g2)] }
      | none => { st with values := st.values ++ [.value l sub sup arr cf] }
  | .node l sub sup vals feats cf =>
    -- the final `else` branch of the source also splits a NODE child's label
    match jsMatchTrailingBrace l with
    | some (g1, g2) => { st with values := st.values ++ [.node (jsTrim g1) sub sup vals feats (some g2)] }
    | none => { st with values := st.values ++ [.node l sub sup vals feats cf] }
  | .root vals => { st with values := st.values ++ [.root vals] } -- unreachable from parseToken

/-- The JS name of a token type (used in the `Unexpected ...` message). -/
def TokenType.name : TokenType → String
  | .BRACKET_OPEN => "BRACKET_OPEN"
  | .BRACKET_CLOSE => "BRACKET_CLOSE"
  | .STRING => "STRING"
  | .NUMBER => "NUMBER"
  | .QUOTED_STRING => "QUOTED_STRING"
  | .SUBSCRIPT_PREFIX => "SUBSCRIPT_PREFIX"
  | .SUPERSCRIPT_PREFIX => "SUPERSCRIPT_PREFIX"
  | .ARROW_TO => "ARROW_TO"
  | .ARROW_FROM => "ARROW_FROM"
  | .ARROW_BOTH => "ARROW_BOTH"
  | .ARROW_DOTTED_TO => "ARROW_DOTTED_TO"

mutual

/-- `parseToken`, with a fuel parameter making the mutual recursion with
`parseNode` obviously terminating; `parse` supplies fuel amply exceeding
what a token list can consume, so the fuel branch is unreachable. -/
def parseTokenF : Nat → List Token → Nat → Except String (Nat × SNode)
  | 0, _, _ => .error "fuel exhausted"
  | fuel + 1, tokens, current =>
    match tokens[current]? with
    | none => .error "TypeError" -- parseToken is only called in bounds
    | some t =>
      match t.type with
      | .BRACKET_OPEN => parseNodeF fuel tokens current
      | .STRING => parseValue tokens current
      | .QUOTED_STRING => parseValue tokens current
      | ty => .error ("Unexpected " ++ ty.name ++ " at idx " ++ toString (current : Int))

/-- `parseNode`: label, optional sub/superscript, children until a closing
bracket. -/
def parseNodeF : Nat → List Token → Nat → Except String (Nat × SNode)
  | 0, _, _ => .error "fuel exhausted"
  | fuel + 1, tokens, current =>
    -- Get label
    if (current : Int) > (tokens.length : Int) - 2 then .error "Missing label after ["
    else
      match tokens[current + 1]? with
      | none => .error "TypeError" -- unreachable: current + 1 < tokens.length
      | some label_token =>
        if label_token.type ≠ .STRING ∧ label_token.type ≠ .QUOTED_STRING then
          .error "Expected label string after ["
        else
          let st0 : NodeData := { label := label_token.value }
          let cur1 := current + 2
          -- Check for sub/superscript
          let afterSub : Except String (Nat × NodeData) :=
            if cur1 < tokens.length - 1 then
              match tokens[cur1]? with
              | none => .error "TypeError" -- unreachable
              | some t1 =>
                if t1.type = .SUBSCRIPT_PREFIX ∨ t1.type = .SUPERSCRIPT_PREFIX then
                  match tokens[cur1 + 1]? with
                  | none => .error "TypeError" -- unreachable
                  | some sub_token =>
                    if sub_token.type ≠ .STRING ∧ sub_token.type ≠ .QUOTED_STRING then
                      .error (toString ((cur1 : Int) + 1) ++ ": Expected subscript string after _ or ^")
                    else if t1.type = .SUPERSCRIPT_PREFIX then
                      pure (cur1 + 2, { st0 with superscript := some sub_token.value })
                    else pure (cur1 + 2, { st0 with subscript := some sub_token.value })
                else pure (cur1, st0)
            else pure (cur1, st0)
          match afterSub with
          | .error e => .error e
          | .ok (cur2, st1) =>
            -- Parse children
            match parseChildrenF fuel tokens cur2 st1 with
            | .error e => .error e
            | .ok (cur3, st2) =>
              if tokens.length ≤ cur3 then
                .error (toString ((cur3 : Int) - 1) ++ ": Missing closing bracket ] ...")
              else
                pure (cur3 + 1,
                  .node st2.label st2.subscript st2.superscript st2.values st2.features st2.caseFeature)

/-- The children loop of `parseNode`: parse constructs until a closing
bracket or the end of input, classifying each one. -/
def parseChildrenF : Nat → List Token → Nat → NodeData → Except String (Nat × NodeData)
  | 0, _, _, _ => .error "fuel exhausted"
  | fuel + 1, tokens, current, st =>
    match tokens[current]? with
    | none => pure (current, st) -- `current < tokens.length` fails: loop exits
    | some t =>
      if t.type = .BRACKET_CLOSE then pure (current, st)
      else
        match parseTokenF fuel tokens current with
        | .error e => .error e
        | .ok (current', v) => parseChildrenF fuel tokens current' (classify st v)

end

/-- The top-level loop of `parse`, collecting Root's children. -/
def parseRootF : Nat → List Token → Nat → List SNode → Except String (List SNode)
  | 0, _, _, _ => .error "fuel exhausted"
  | fuel + 1, tokens, current, acc =>
    if current < tokens.length then
      match parseTokenF fuel tokens current with
      | .error e => .error e
      | .ok (current', v) => parseRootF fuel tokens current' (acc ++ [v])
    else pure acc

/-- `parse`: the root node with label `__ROOT__` collecting the top-level
constructs.  The supplied fuel strictly dominates the number of calls any
run on `tokens` can make (each parsed construct consumes at least one
token), so the `fuel exhausted` branch is unreachable. -/
def parse (tokens : List Token) : Except String SNode :=
  (parseRootF (4 * tokens.length + 8) tokens 0 []).map .root

end STree

namespace STree

/-! ## Structural pre-checks (`syntaxtree.js`) -/

/-- `countOpenBrackets`: signed count of opens minus closes. -/
def countOpenBrackets (tokens : List Token) : Int :=
  tokens.foldl (fun o t =>
    let o := if t.type = .BRACKET_OPEN then o + 1 else o
    if t.type = .BRACKET_CLOSE then o - 1 else o) 0

/-- `validateTokens`: the coarse structural pre-checks run before parsing.
The fallback branch of the double `match` is unreachable because the length
check guarantees at least three tokens. -/
def validateTokens (tokens : List Token) : Except String Unit :=
  if tokens.length < 3 then .error "Phrase too short"
  else
    match tokens.head?, tokens.getLast? with
    | some first, some last =>
      if first.type ≠ .BRACKET_OPEN ∨ last.type ≠ .BRACKET_CLOSE then
        .error "Phrase must start with [ and end with ]"
      else
        let brackets := countOpenBrackets tokens
        if 0 < brackets then .error (toString brackets ++ " bracket(s) open [")
        else if brackets < 0 then
          .error (toString brackets.natAbs ++ " too many closed bracket(s) ]")
        else pure ()
    | _, _ => .error "Phrase too short"

end STree

namespace STree

/-! ## Drawables and layout (`tree.js`)

The canvas collaborator is modelled by its text-measurement capability
`tw : String → ℚ` and its `fontsize : ℚ`, the only pieces of it the layout
code reads. -/

/-- `NODE_PADDING`. -/
def NODE_PADDING : ℚ := 20

/-- The non-recursive fields of a drawable node.  `depth` is a `WithTop ℤ`:
`⊤` models the `Infinity` that `Math.min()` of an empty list produces in
`moveParentsDown` for a childless internal node. -/
structure DrawData where
  label : String
  subscript : Option String := none
  superscript : Option String := none
  width : ℚ := 0
  depth : WithTop ℤ := 0
  is_leaf : Bool := false
  arrows : List ArrowDir := []
  features : List String := []
  caseFeature : Option String := none
  left : ℚ := 0
  top : ℚ := 0
deriving DecidableEq, Repr

/-- A drawable node: its data and its ordered children.  (`left` and `top`
exist from creation with value 0; in the source they are `undefined` until
the position phase assigns them.) -/
inductive Drawable where
  | mk (data : DrawData) (children : List Drawable)

def Drawable.data : Drawable → DrawData
  | .mk q _ => q

def Drawable.children : Drawable → List Drawable
  | .mk _ cs => cs

def Drawable.label (d : Drawable) : String := d.data.label
def Drawable.subscript (d : Drawable) : Option String := d.data.subscript
def Drawable.superscript (d : Drawable) : Option String := d.data.superscript
def Drawable.width (d : Drawable) : ℚ := d.data.width
def Drawable.depth (d : Drawable) : WithTop ℤ := d.data.depth
def Drawable.is_leaf (d : Drawable) : Bool := d.data.is_leaf
def Drawable.arrows (d : Drawable) : List ArrowDir := d.data.arrows
def Drawable.caseFeature (d : Drawable) : Option String := d.data.caseFeature
def Drawable.left (d : Drawable) : ℚ := d.data.left
def Drawable.top (d : Drawable) : ℚ := d.data.top

/-- Accessors on the parsed tree mirroring JS property reads (`undefined`
reads of fields a variant lacks become the respective neutral values;
the root object of `parse` carries the label `__ROOT__`). -/
def SNode.label : SNode → String
  | .root _ => "__ROOT__"
  | .node l _ _ _ _ _ => l
  | .value l _ _ _ _ => l

def SNode.subscript : SNode → Option String
  | .node _ s _ _ _ _ => s
  | .value _ s _ _ _ => s
  | .root _ => none

def SNode.superscript : SNode → Option String
  | .node _ _ s _ _ _ => s
  | .value _ _ s _ _ => s
  | .root _ => none

def SNode.values : SNode → List SNode
  | .root vs => vs
  | .node _ _ _ vs _ _ => vs
  | .value _ _ _ _ _ => []

def SNode.features : SNode → List String
  | .node _ _ _ _ fs _ => fs
  | _ => []

def SNode.caseFeature : SNode → Option String
  | .node _ _ _ _ _ cf => cf
  | .value _ _ _ _ cf => cf
  | .root _ => none

def SNode.arrows : SNode → List ArrowDir
  | .value _ _ _ arr _ => arr
  | _ => []

def SNode.isRoot : SNode → Bool
  | .root _ => true
  | _ => false

def SNode.isNode : SNode → Bool
  | .node _ _ _ _ _ _ => true
  | _ => false

def SNode.isValue : SNode → Bool
  | .value _ _ _ _ _ => true
  | _ => false

/-- `{...node, label: drawableLabel}`: the spread replacing the label. -/
def withLabel : SNode → String → SNode
  | .root vals, _ => .root vals
  | .node _ sub sup vals feats cf, l => .node l sub sup vals feats cf
  | .value _ sub sup arr cf, l => .value l sub sup arr cf

/-- `features.join(', ')`. -/
def joinComma : List String → String
  | [] => ""
  | [s] => s
  | s :: rest => s ++ ", " ++ joinComma rest

/-- JS `s.slice(1, -1)`: drop the first and the last character. -/
def jsSlice1m1 (s : String) : String := ⟨(s.data.drop 1).dropLast⟩

/-- Test of `/^.*$/` in JS: `.` does not match line terminators and `$`
anchors at the very end, so the test succeeds exactly when every character
of the string is matched by `.`. -/
def jsTestDotStarFull (s : String) : Bool := s.data.all jsDot

mutual

/-- `getNodeWidth`: the label width (plus padding) adjusted for
sub/superscripts, the feature bracket and (for leaves) the case bracket;
for non-leaves the maximum with the summed width of the children.  The
source reads `node.subscript`, `node.features`, `node.caseFeature` with JS
truthiness and the `type` guards shown; per-variant those reads resolve as
written here (Root carries none of those fields). -/
def getNodeWidth (tw : String → ℚ) : SNode → ℚ
  | .root vals => max 0 (widthSum tw vals)
  | .node l sub sup vals feats _cf =>
    let lw := tw l + NODE_PADDING
    let lw :=
      if jsTruthyOpt sub then lw + tw (sub.getD "") * 3 / 4 * 2
      else if jsTruthyOpt sup then lw + tw (sup.getD "") * 3 / 4 * 2
      else lw
    let lw := if 0 < feats.length then max lw (tw ("[" ++ joinComma feats ++ "]")) else lw
    max lw (widthSum tw vals)
  | .value l sub sup _arr cf =>
    let lw := tw l + NODE_PADDING
    let lw :=
      if jsTruthyOpt sub then lw + tw (sub.getD "") * 3 / 4 * 2
      else if jsTruthyOpt sup then lw + tw (sup.getD "") * 3 / 4 * 2
      else lw
    if jsTruthyOpt cf then
      let caseText := "[" ++ jsSlice1m1 (cf.getD "") ++ "]"
      let caseText :=
        if 100 < caseText.data.length then (⟨caseText.data.take 100⟩ : String) ++ "…]"
        else caseText
      max lw (tw caseText * (0.7 : ℚ) + NODE_PADDING)
    else lw

/-- The `reduce` of `getChildWidth`: summed widths of a list of children. -/
def widthSum (tw : String → ℚ) : List SNode → ℚ
  | [] => 0
  | n :: rest => getNodeWidth tw n + widthSum tw rest

end

/-- `getChildWidth`. -/
def getChildWidth (tw : String → ℚ) : SNode → ℚ
  | .value _ _ _ _ _ => 0
  | .root vals => widthSum tw vals
  | .node _ _ _ vals _ _ => widthSum tw vals

mutual

/-- `drawableFromNode` (tree.js lines 312-354).  The width is stated once;
the source assigns the identical expression a second time for non-leaf
nodes.  `forceLeaf` is never passed as `true` anywhere in the source but is
kept for fidelity. -/
def drawableFromNode (tw : String → ℚ) : SNode → Int → Bool → Drawable
  | node, depth, forceLeaf =>
    let isLeaf := if forceLeaf then !(node.isRoot || node.isNode) else node.isValue
    -- Only assign caseFeature for leaf nodes if present and label is not
    -- just the case feature itself (the guard `label && !/^.*$/.test(label)`)
    let (caseFeature, drawableLabel) :=
      if isLeaf && jsTruthyOpt node.caseFeature && node.label ≠ "" &&
          !(jsTestDotStarFull node.label) then
        (node.caseFeature, jsTrim (jsStripTrailingBrace node.label))
      else (none, node.label)
    let dd : DrawData :=
      { label := drawableLabel
        subscript := node.subscript
        superscript := node.superscript
        width := getNodeWidth tw (withLabel node drawableLabel)
        depth := (depth : ℤ)
        is_leaf := isLeaf
        arrows := node.arrows
        features := node.features
        caseFeature := caseFeature }
    match node with
    | .value _ _ _ _ _ => .mk dd []
    | .root vals => .mk dd (drawList tw vals (depth + 1))
    | .node _ _ _ vals _ _ => .mk dd (drawList tw vals (depth + 1))

/-- The `forEach` of `drawableFromNode` over the children. -/
def drawList (tw : String → ℚ) : List SNode → Int → List Drawable
  | [], _ => []
  | n :: rest, depth => drawableFromNode tw n depth false :: drawList tw rest depth

end

/-- The `reduce` of `getDrawableChildWidth`: summed widths of drawables. -/
def sumWidths : List Drawable → ℚ
  | [] => 0
  | c :: rest => c.width + sumWidths rest

/-- `getDrawableChildWidth`. -/
def getDrawableChildWidth (d : Drawable) : ℚ := sumWidths d.children

mutual

/-- `getMaxDepth`: `reduce(Math.max ∘ getMaxDepth, drawable.depth)`. -/
def getMaxDepth : Drawable → WithTop ℤ
  | .mk data cs => maxDepthFold cs data.depth

def maxDepthFold : List Drawable → WithTop ℤ → WithTop ℤ
  | [], m => m
  | c :: rest, m => maxDepthFold rest (max m (getMaxDepth c))

end

mutual

/-- `moveLeafsToBottom`: pin every leaf to the given depth. -/
def moveLeafsToBottom : Drawable → WithTop ℤ → Drawable
  | .mk data cs, bottom =>
    let data := if data.is_leaf then { data with depth := bottom } else data
    .mk data (moveLeafsList cs bottom)

def moveLeafsList : List Drawable → WithTop ℤ → List Drawable
  | [], _ => []
  | c :: rest, bottom => moveLeafsToBottom c bottom :: moveLeafsList rest bottom

end

/-- `Math.min(...)` over a list: fold with `min` from `⊤` (`Math.min()` with
no arguments is `Infinity`). -/
def jsMinList (l : List (WithTop ℤ)) : WithTop ℤ := l.foldr min ⊤

mutual

/-- `moveParentsDown`: post-order; a leaf is returned untouched, and an
internal node whose depth is not 0 is pulled to
`Math.min(...children.map(c => c.depth - 1))` over its processed children
(`Infinity - 1 = Infinity` is `WithTop.map (· - 1)` at `⊤`). -/
def moveParentsDown : Drawable → Drawable
  | .mk data cs =>
    if data.is_leaf then .mk data cs
    else
      let cs' := moveParentsList cs
      if data.depth ≠ (0 : WithTop ℤ) then
        .mk { data with
              depth := jsMinList (cs'.map (fun c => WithTop.map (· - 1) c.depth)) } cs'
      else .mk data cs'

def moveParentsList : List Drawable → List Drawable
  | [] => []
  | c :: rest => moveParentsDown c :: moveParentsList rest

end

/-! JS `Map` model: an association list in insertion order; `set` updates in
place, `delete` filters, iteration follows the list. -/

def mapGet (m : List (String × Nat)) (k : String) : Option Nat :=
  (m.find? (fun p => decide (p.1 = k))).map (·.2)

def mapSet (m : List (String × Nat)) (k : String) (v : Nat) : List (String × Nat) :=
  if m.any (fun p => decide (p.1 = k)) then
    m.map (fun p => if p.1 = k then (k, v) else p)
  else m ++ [(k, v)]

/-- `mapInc`: `map.set(key, (map.get(key) || 0) + 1)`. -/
def mapInc (m : List (String × Nat)) (k : String) : List (String × Nat) :=
  mapSet m k ((mapGet m k).getD 0 + 1)

/-- `mapMerge`: add all of `b`'s counts into `a`. -/
def mapMerge (a b : List (String × Nat)) : List (String × Nat) :=
  b.foldl (fun a p => mapSet a p.1 ((mapGet a p.1).getD 0 + p.2)) a

mutual

/-- `countNodes`: count labels of non-leaf drawables that do not carry a
(truthy) subscript; leaves contribute an empty map. -/
def countNodes : Drawable → List (String × Nat)
  | .mk data cs =>
    if data.is_leaf then []
    else
      let m := if !jsTruthyOpt data.subscript then mapInc [] data.label else []
      countNodesList cs m

def countNodesList : List Drawable → List (String × Nat) → List (String × Nat)
  | [], m => m
  | c :: rest, m => countNodesList rest (mapMerge m (countNodes c))

end

mutual

/-- `assignSubscripts`: pre-order; a non-leaf drawable without a truthy
subscript or superscript whose label is among `keys` receives the next
tally number for its label as its subscript. -/
def assignSubscripts :
    Drawable → List String → List (String × Nat) → Drawable × List (String × Nat)
  | .mk data cs, keys, tally =>
    let (data, tally) :=
      if !data.is_leaf && !jsTruthyOpt data.subscript && !jsTruthyOpt data.superscript
          && keys.any (fun k => decide (k = data.label)) then
        let tally := mapInc tally data.label
        ({ data with subscript := some (toString ((mapGet tally data.label).getD 0)) }, tally)
      else (data, tally)
    let (cs', tally) := assignSubsList cs keys tally
    (.mk data cs', tally)

def assignSubsList :
    List Drawable → List String → List (String × Nat) → List Drawable × List (String × Nat)
  | [], _, tally => ([], tally)
  | c :: rest, keys, tally =>
    let (c', tally') := assignSubscripts c keys tally
    let (rest', tally'') := assignSubsList rest keys tally'
    (c' :: rest', tally'')

end

/-- `calculateAutoSubscript`: count, delete singleton entries, assign. -/
def calculateAutoSubscript (d : Drawable) : Drawable :=
  let map := countNodes d
  let map := map.filter (fun p => !decide (p.2 = 1))
  (assignSubscripts d (map.map (·.1)) []).1

mutual

/-- `findTargetLeaf`: in-order leaf counting (each leaf increments the
count; the leaf whose 1-based number equals `arrow_idx` is returned). -/
def findTargetLeaf : Drawable → Nat → Nat → Nat × Option Drawable
  | .mk data cs, arrow_idx, count =>
    let count := if data.is_leaf then count + 1 else count
    if data.is_leaf ∧ count = arrow_idx then (count, some (.mk data cs))
    else findTargetList cs arrow_idx count

def findTargetList : List Drawable → Nat → Nat → Nat × Option Drawable
  | [], _, count => (count, none)
  | c :: rest, arrow_idx, count =>
    match findTargetLeaf c arrow_idx count with
    | (count', some t) => (count', some t)
    | (count', none) => findTargetList rest arrow_idx count'

end

/-- `findTarget`. -/
def findTarget (d : Drawable) (arrow_idx : Nat) : Option Drawable :=
  (findTargetLeaf d arrow_idx 0).2

/-- `getDrawableCenter`. -/
def getDrawableCenter (d : Drawable) : ℚ := d.left + d.width / 2

mutual

/-- `findMaxDepthBetween`: maximum `top` over the leaves whose `left` lies
in `[l, r]`, folded over the whole subtree on top of `max_y`. -/
def findMaxDepthBetween : Drawable → ℚ → ℚ → ℚ → ℚ
  | .mk data cs, l, r, max_y =>
    let max_y := fmdList cs l r max_y
    if data.is_leaf && decide (l ≤ data.left) && decide (data.left ≤ r) then
      max data.top max_y
    else max_y

def fmdList : List Drawable → ℚ → ℚ → ℚ → ℚ
  | [], _, _, m => m
  | c :: rest, l, r, m => fmdList rest l r (max (findMaxDepthBetween c l r m) m)

end

/-- A routed arrow. -/
structure Arrow where
  from_x : ℚ
  from_y : ℚ
  to_x : ℚ
  to_y : ℚ
  bottom : ℚ
  ends_to : Bool
  ends_from : Bool
  label : Option String
  dotted : Bool
deriving DecidableEq, Repr

/-- The `ArrowSet` accumulator: ordered arrows and the running maximum of
their `bottom` values, starting at 0. -/
structure ArrowSet where
  arrows : List Arrow := []
  maxBottom : ℚ := 0
deriving DecidableEq, Repr

def ArrowSet.add (s : ArrowSet) (a : Arrow) : ArrowSet :=
  ⟨s.arrows ++ [a], max s.maxBottom a.bottom⟩

def ArrowSet.concatenate (s t : ArrowSet) : ArrowSet :=
  ⟨s.arrows ++ t.arrows, max s.maxBottom t.maxBottom⟩

/-- The body of the `for (const arrowObj of drawable.arrows)` loop of
`makeArrowSetOn` for one directive with resolved target: anchor points from
the label-block heights (multi-line labels, case-feature line), the shared
control height `1.4 × findMaxDepthBetween(...)`, and the pass-through
flags. -/
def routeOne (root : Drawable) (fontsize : ℚ) (src tgt : Drawable) (a : ArrowDir) : Arrow :=
  let labelHeight := ((jsSplitNL src.label).length : ℚ) * fontsize * (1.1 : ℚ)
  let from_x := getDrawableCenter src
  let from_y := src.top + labelHeight + 2 +
    (if jsTruthyOpt src.caseFeature then fontsize * (0.7 : ℚ) + 2 else 0)
  let targetHeight := ((jsSplitNL tgt.label).length : ℚ) * fontsize * (1.1 : ℚ)
  let to_x := getDrawableCenter tgt
  let to_y := tgt.top + targetHeight + 2 +
    (if jsTruthyOpt tgt.caseFeature then fontsize * (0.7 : ℚ) + 2 else 0)
  let bottom := (1.4 : ℚ) *
    findMaxDepthBetween root (min src.left tgt.left) (max src.left tgt.left) 0
  ⟨from_x, from_y, to_x, to_y, bottom, a.endsTo, a.endsFrom,
   if jsTruthyOpt a.label then a.label else none, a.dotted⟩

/-- The directive loop of `makeArrowSetOn`: directives whose target does not
resolve are skipped (`continue`), all others are added in order. -/
def routeArrows (root : Drawable) (fontsize : ℚ) (src : Drawable) :
    List ArrowDir → ArrowSet → ArrowSet
  | [], s => s
  | a :: rest, s =>
    match findTarget root a.target with
    | none => routeArrows root fontsize src rest s
    | some tgt => routeArrows root fontsize src rest (s.add (routeOne root fontsize src tgt a))

mutual

/-- `makeArrowSetOn`: concatenate the children's arrow sets (in order), then
append one routed arrow per own directive when the node is a leaf with a
non-empty directive list. -/
def makeArrowSetOn (root : Drawable) (fontsize : ℚ) : Drawable → ArrowSet
  | .mk data cs =>
    let s := masList root fontsize cs ⟨[], 0⟩
    if !data.is_leaf || data.arrows.isEmpty then s
    else routeArrows root fontsize (.mk data cs) data.arrows s

def masList (root : Drawable) (fontsize : ℚ) : List Drawable → ArrowSet → ArrowSet
  | [], s => s
  | c :: rest, s => masList root fontsize rest (s.concatenate (makeArrowSetOn root fontsize c))

end

/-- `makeArrowSet`. -/
def makeArrowSet (root : Drawable) (fontsize : ℚ) : ArrowSet :=
  makeArrowSetOn root fontsize root

/-- The depth factor of the `top` assignment.  A depth of `⊤` (JS
`Infinity`, reachable only through a childless internal node under
`BottomAligned`) has no rational image and is mapped to 0; no statement
below evaluates positions of such a tree. -/
def depthQ (d : WithTop ℤ) : ℚ := ((d.untop' 0 : ℤ) : ℚ)

/-- The children loop of `calculateDrawablePositions`, processing a sibling
list at the given `parent_offset`, running `offset` and parent `scale`:
each child has its `top` assigned from its depth, its `left` from the
running offset, its `width` multiplied by the scale (which the dead
conditional of the source always leaves at 1), then its own children are
processed (this inlines the recursive `calculateDrawablePositions` call on
the child, whose own scale is recomputed from the child's data), and the
offset advances by the child's (scaled) width.  Returns the processed
siblings and whether any of them (or their descendants) carries an arrow
directive. -/
def calcPosKids (fontsize vscaler : ℚ) : List Drawable → ℚ → ℚ → ℚ → List Drawable × Bool
  | [], _, _, _ => ([], false)
  | .mk cdata ccs :: rest, parent_offset, offset, scale =>
    let cdata := { cdata with
      top := depthQ cdata.depth * (fontsize * 3 * vscaler) + NODE_PADDING / 2
      left := offset + parent_offset
      width := cdata.width * scale }
    let childScale : ℚ :=
      if (0 : WithTop ℤ) ≤ cdata.depth then
        (if sumWidths ccs < cdata.width then 1 else 1)
      else 1
    let (ccs', cha) := calcPosKids fontsize vscaler ccs cdata.left 0 childScale
    let childHasArrow := !cdata.arrows.isEmpty || cha
    let (rest', rha) := calcPosKids fontsize vscaler rest parent_offset (offset + cdata.width) scale
    (.mk cdata ccs' :: rest', childHasArrow || rha)

/-- `calculateDrawablePositions` on the root drawable (the root's own
fields are not assigned; only children are positioned).  The `canvas`
argument of the source is represented by its `fontsize`. -/
def calculateDrawablePositions (fontsize : ℚ) (d : Drawable) (vscaler : ℚ)
    (parent_offset : ℚ) : Drawable × Bool :=
  match d with
  | .mk data cs =>
    let hasArrow := !data.arrows.isEmpty
    let scale : ℚ :=
      if (0 : WithTop ℤ) ≤ data.depth then
        (if sumWidths cs < data.width then 1 else 1)
      else 1
    let (cs', ha) := calcPosKids fontsize vscaler cs parent_offset 0 scale
    (.mk data cs', hasArrow || ha)

end STree

namespace STree

/-! ## Claim C9: structural pre-checks -/

/-- Whether a token sequence starts with a bracket-open and ends with a
bracket-close (the wrapping condition of `validateTokens`). -/
def wrapped (tokens : List Token) : Bool :=
  match tokens.head?, tokens.getLast? with
  | some f, some l => decide (f.type = .BRACKET_OPEN) && decide (l.type = .BRACKET_CLOSE)
  | _, _ => false

/-- Unfolding of `validateTokens` once the first and last tokens are known
and the length check has passed. -/
theorem validateTokens_eq (tokens : List Token) (f l : Token) (h3 : 3 ≤ tokens.length)
    (hf : tokens.head? = some f) (hl : tokens.getLast? = some l) :
    validateTokens tokens =
      if f.type ≠ .BRACKET_OPEN ∨ l.type ≠ .BRACKET_CLOSE then
        .error "Phrase must start with [ and end with ]"
      else if 0 < countOpenBrackets tokens then
        .error (toString (countOpenBrackets tokens) ++ " bracket(s) open [")
      else if countOpenBrackets tokens < 0 then
        .error (toString (countOpenBrackets tokens).natAbs ++ " too many closed bracket(s) ]")
      else .ok () := by
  unfold validateTokens
  rw [if_neg (by omega), hf, hl]
  rfl

/-- C9: the structural pre-check accepts exactly the token sequences of
length at least 3 that start with a bracket-open, end with a bracket-close
and whose signed open-minus-close count is 0 at the end of input; a
too-short sequence is rejected with the phrase-too-short message, bad
wrapping with the missing-wrapping-brackets message, and (for wrapped
sequences) a positive final count with the over-open message and a negative
final count with the over-close message. -/
theorem c9_validate_pre_checks (tokens : List Token) :
    (validateTokens tokens = .ok () ↔
      3 ≤ tokens.length ∧ wrapped tokens = true ∧ countOpenBrackets tokens = 0) ∧
    (tokens.length < 3 → validateTokens tokens = .error "Phrase too short") ∧
    (3 ≤ tokens.length → wrapped tokens = false →
      validateTokens tokens = .error "Phrase must start with [ and end with ]") ∧
    (3 ≤ tokens.length → wrapped tokens = true → 0 < countOpenBrackets tokens →
      validateTokens tokens =
        .error (toString (countOpenBrackets tokens) ++ " bracket(s) open [")) ∧
    (3 ≤ tokens.length → wrapped tokens = true → countOpenBrackets tokens < 0 →
      validateTokens tokens =
        .error (toString (countOpenBrackets tokens).natAbs ++ " too many closed bracket(s) ]")) := by
  by_cases h3 : tokens.length < 3
  · have hshort : validateTokens tokens = .error "Phrase too short" := by
      unfold validateTokens
      rw [if_pos h3]
    refine ⟨?_, fun _ => hshort, fun h _ => absurd h (by omega),
      fun h _ _ => absurd h (by omega), fun h _ _ => absurd h (by omega)⟩
    rw [hshort]
    constructor
    · intro h; cases h
    · rintro ⟨h1, -⟩; omega
  · push_neg at h3
    have hne : tokens ≠ [] := by
      intro h; subst h; simp at h3
    obtain ⟨f, hf⟩ : ∃ f, tokens.head? = some f := by
      cases tokens with
      | nil => exact absurd rfl hne
      | cons a t => exact ⟨a, rfl⟩
    obtain ⟨l, hl⟩ : ∃ l, tokens.getLast? = some l := by
      rcases Option.isSome_iff_exists.mp ((List.getLast?_isSome).mpr hne) with ⟨l, h⟩
      exact ⟨l, h⟩
    have hw : wrapped tokens =
        (decide (f.type = .BRACKET_OPEN) && decide (l.type = .BRACKET_CLOSE)) := by
      unfold wrapped
      rw [hf, hl]
    rw [validateTokens_eq tokens f l h3 hf hl, hw]
    by_cases hgood : f.type = .BRACKET_OPEN ∧ l.type = .BRACKET_CLOSE
    · rw [if_neg (by tauto)]
      have hwt : (decide (f.type = .BRACKET_OPEN) && decide (l.type = .BRACKET_CLOSE)) = true := by
        simp [hgood.1, hgood.2]
      rw [hwt]
      constructor
      · constructor
        · intro hok
          split_ifs at hok with h1 h2
          exact ⟨h3, rfl, by omega⟩
        · rintro ⟨-, -, hzero⟩
          rw [if_neg (by omega), if_neg (by omega)]
      refine ⟨fun h => absurd h (by omega), fun _ h => by simp at h, ?_, ?_⟩
      · intro _ _ hpos
        rw [if_pos hpos]
      · intro _ _ hneg
        rw [if_neg (by omega), if_pos hneg]
    · rw [if_pos (by tauto)]
      have hwf : (decide (f.type = .BRACKET_OPEN) && decide (l.type = .BRACKET_CLOSE)) = false := by
        rcases not_and_or.mp hgood with h | h <;> simp [h]
      rw [hwf]
      refine ⟨?_, fun h => absurd h (by omega), fun _ _ => rfl,
        fun _ h => by simp at h, fun _ h => by simp at h⟩
      constructor
      · intro h; simp at h
      · rintro ⟨-, h, -⟩; simp at h

/-- Witness for C9: `[ [ ]` (three tokens, wrapped, one surplus open) is
rejected with the over-open message. -/
theorem c9_witness :
    validateTokens [⟨.BRACKET_OPEN, "", 0⟩, ⟨.BRACKET_OPEN, "", 0⟩, ⟨.BRACKET_CLOSE, "", 0⟩] =
      .error "1 bracket(s) open [" :=
  ((c9_validate_pre_checks _).2.2.2.1 (by decide) (by decide) (by decide)).trans
    (congrArg Except.error (by decide))

end STree

namespace STree

/-! ## Claim C10: the case-feature guard in the build phase -/

/-- Counterexample to C10: the guard `label && !/^.*$/.test(label)` is
satisfiable.  In JavaScript `.` does not match a line terminator and `$`
(without the `m` flag) anchors at the end of the string, so
`/^.*$/.test("a\nb")` is `false` and the branch executes: the Drawable
built for the leaf with label `"a\nb"` and case feature `"{Acc}"` carries
`caseFeature = "{Acc}"`, not `null` - refuting both the dead-code claim and
the always-`null` claim. -/
theorem c10_counterexample :
    jsTestDotStarFull "a\nb" = false ∧
    (drawableFromNode (fun s => (s.data.length : ℚ))
        (.value "a\nb" none none [] (some "{Acc}")) 0 false).caseFeature = some "{Acc}" := by
  constructor
  · decide
  · decide

/-- C10 amended: the guard `label && !/^.*$/.test(label)` is satisfied only
for labels containing a line terminator.  For every syntax node whose label
consists solely of characters matched by `.` (in particular any label
without a newline), the branch is not taken: the Drawable's `caseFeature`
is `null` and its label is the node's label unchanged. -/
theorem c10_amended_guard_dead_without_newline (tw : String → ℚ) (node : SNode)
    (depth : Int) (forceLeaf : Bool) (h : node.label.data.all jsDot = true) :
    (drawableFromNode tw node depth forceLeaf).caseFeature = none ∧
    (drawableFromNode tw node depth forceLeaf).label = node.label := by
  have ht : jsTestDotStarFull node.label = true := h
  cases node <;>
    simp [drawableFromNode, ht, Drawable.caseFeature, Drawable.label, Drawable.data]

/-- Witness for the amended C10 at a concrete leaf whose label has no line
terminator: the guard stays dead even with a case feature present. -/
theorem c10_witness :
    (drawableFromNode (fun s => (s.data.length : ℚ))
        (.value "THE CAT" none none [] (some "{Acc}")) 0 false).caseFeature = none ∧
    (drawableFromNode (fun s => (s.data.length : ℚ))
        (.value "THE CAT" none none [] (some "{Acc}")) 0 false).label = "THE CAT" :=
  c10_amended_guard_dead_without_newline (fun s => (s.data.length : ℚ))
    (.value "THE CAT" none none [] (some "{Acc}")) 0 false (by decide)

end STree

namespace STree

/-! ## Claim C7: feature leaves -/

/-- The tokens of `[X +FEAT [Y Z]]`. -/
def c7toks : List Token :=
  [⟨.BRACKET_OPEN, "", 0⟩, ⟨.STRING, "X", 0⟩, ⟨.STRING, "+FEAT", 0⟩,
   ⟨.BRACKET_OPEN, "", 0⟩, ⟨.STRING, "Y", 0⟩, ⟨.STRING, "Z", 0⟩, ⟨.BRACKET_CLOSE, "", 0⟩,
   ⟨.BRACKET_CLOSE, "", 0⟩]

/-- The tokenizer produces `c7toks` for `[X +FEAT [Y Z]]`. -/
def c7tokCheck : Bool :=
  match tokenize "[X +FEAT [Y Z]]" with
  | .ok ts => decide (ts = c7toks)
  | _ => false

/-- Parsing `[X +FEAT [Y Z]]` puts `+FEAT` into node X's features and gives
X exactly one tree child, the node Y (no child labelled `+FEAT`). -/
def c7parseCheck : Bool :=
  match parse c7toks with
  | .ok (.root [.node "X" none none
      [.node "Y" none none [.value "Z" none none [] none] [] none] ["+FEAT"] none]) => true
  | _ => false

/-- C7: a child leaf whose label begins with `+` is appended to the parent
node's features and never added to the parent's child sequence (the other
components of the node under construction are untouched); and concretely
`[X +FEAT [Y Z]]` parses to a node `X` with features `["+FEAT"]` and the
single child `[Y Z]`. -/
theorem c7_feature_leaves :
    (∀ (st : NodeData) (l : String) (sub sup : Option String)
        (arr : List ArrowDir) (cf : Option String),
      startsWithPlus l = true →
      classify st (.value l sub sup arr cf) = { st with features := st.features ++ [l] }) ∧
    c7tokCheck = true ∧ c7parseCheck = true := by
  refine ⟨?_, by decide, by decide⟩
  intro st l sub sup arr cf h
  simp [classify, h]

/-- Witness for C7: the classification step at a concrete feature leaf. -/
theorem c7_witness :
    classify ⟨"X", none, none, [], [], none⟩ (.value "+FEAT" none none [] none) =
      ⟨"X", none, none, [], ["+FEAT"], none⟩ :=
  c7_feature_leaves.1 ⟨"X", none, none, [], [], none⟩ "+FEAT" none none [] none (by decide)

end STree

namespace STree

/-! ## Claim C1: arrow directives on a leaf -/

/-- The continuation of the arrow loop after one directive `dir` has been
recognised (operator and mandatory number consumed, suffix `rest2`): an
optional string/quoted-string is taken as the directive's label, a
following unquoted-string token of value exactly `,` is skipped and the
inner loop continues (`afterComma = true`), and otherwise control returns
to the top of the outer loop.  This names the continuation shape used to
state C1; it matches the corresponding part of `arrowGo` verbatim. -/
def arrowStepCont (fuel cur : Nat) (rest2 : List Token) (acc : List ArrowDir)
    (dir : ArrowDir) : Except String (Nat × List ArrowDir) :=
  match rest2 with
  | u :: rest3 =>
    if u.type = .STRING ∨ u.type = .QUOTED_STRING then
      match rest3 with
      | c :: rest4 =>
        if c.type = .STRING ∧ c.value = "," then
          arrowGo fuel (cur + 4) rest4 (acc ++ [{ dir with label := some u.value }]) true
        else arrowGo fuel (cur + 3) rest3 (acc ++ [{ dir with label := some u.value }]) false
      | [] => arrowGo fuel (cur + 3) [] (acc ++ [{ dir with label := some u.value }]) false
    else arrowGo fuel (cur + 2) rest2 (acc ++ [dir]) false
  | [] => arrowGo fuel (cur + 2) [] (acc ++ [dir]) false

/-- One full step of the arrow loop at an operator token followed by at
least one more token: the next token must be a number (else the error
naming position `cur + 1`), after which one directive with the flags
computed from the operator is recorded and the continuation of
`arrowStepCont` runs. -/
theorem arrowGo_step (fuel cur : Nat) (rest2 : List Token) (acc : List ArrowDir)
    (afterComma : Bool) (op target : Token) (hop : isArrowType op.type = true) :
    arrowGo (fuel + 1) cur (op :: target :: rest2) acc afterComma =
      if target.type = .NUMBER then
        arrowStepCont fuel cur rest2 acc
          ⟨decide (op.type = .ARROW_TO) || decide (op.type = .ARROW_BOTH) ||
             decide (op.type = .ARROW_DOTTED_TO),
           decide (op.type = .ARROW_FROM) || decide (op.type = .ARROW_BOTH),
           target.nvalue, none, decide (op.type = .ARROW_DOTTED_TO)⟩
      else .error (toString ((cur : Int) + 1) ++ ": Expected column number after arrow") := by
  have hguard : (!afterComma && !decide (2 ≤ (op :: target :: rest2).length)) = false := by
    simp
  by_cases htt : target.type = .NUMBER
  · rw [if_pos htt]
    simp only [arrowGo, hguard, Bool.false_eq_true, if_false, hop, if_true, htt,
      ne_eq, not_true_eq_false, arrowStepCont]
  · rw [if_neg htt]
    simp only [arrowGo, hguard, Bool.false_eq_true, if_false, hop, if_true, ne_eq, htt,
      not_false_eq_true]

/-- C1: at an arrow-operator token the loop demands a number token next:
if the input ends right after the operator (reachable only just after a
comma) the parse fails (the modelled TypeError); if the next token exists
but is not a number the parse fails with the error naming position
`cur + 1`; and if it is a number, one directive is recorded whose direction
and dotted flags are exactly `->` ↦ endsTo only, `<-` ↦ endsFrom only,
`<>` ↦ both, `.>` ↦ endsTo and dotted, followed by the optional-label /
comma-continuation behaviour of `arrowStepCont`. -/
theorem c1_arrow_directive_step (fuel cur : Nat) (rest rest1 : List Token)
    (acc : List ArrowDir) (afterComma : Bool) (op : Token)
    (hrest : rest = op :: rest1) (hop : isArrowType op.type = true) :
    (afterComma = true → rest1 = [] →
      arrowGo (fuel + 1) cur rest acc afterComma = .error "TypeError") ∧
    (∀ target rest2, rest1 = target :: rest2 → target.type ≠ .NUMBER →
      arrowGo (fuel + 1) cur rest acc afterComma =
        .error (toString ((cur : Int) + 1) ++ ": Expected column number after arrow")) ∧
    (∀ target rest2, rest1 = target :: rest2 → target.type = .NUMBER →
      op.type = .ARROW_TO →
      arrowGo (fuel + 1) cur rest acc afterComma =
        arrowStepCont fuel cur rest2 acc ⟨true, false, target.nvalue, none, false⟩) ∧
    (∀ target rest2, rest1 = target :: rest2 → target.type = .NUMBER →
      op.type = .ARROW_FROM →
      arrowGo (fuel + 1) cur rest acc afterComma =
        arrowStepCont fuel cur rest2 acc ⟨false, true, target.nvalue, none, false⟩) ∧
    (∀ target rest2, rest1 = target :: rest2 → target.type = .NUMBER →
      op.type = .ARROW_BOTH →
      arrowGo (fuel + 1) cur rest acc afterComma =
        arrowStepCont fuel cur rest2 acc ⟨true, true, target.nvalue, none, false⟩) ∧
    (∀ target rest2, rest1 = target :: rest2 → target.type = .NUMBER →
      op.type = .ARROW_DOTTED_TO →
      arrowGo (fuel + 1) cur rest acc afterComma =
        arrowStepCont fuel cur rest2 acc ⟨true, false, target.nvalue, none, true⟩) := by
  subst hrest
  refine ⟨?_, ?_, ?_, ?_, ?_, ?_⟩
  · intro hc hr1
    subst hc; subst hr1
    simp [arrowGo, hop]
  · intro target rest2 hr1 htt
    subst hr1
    rw [arrowGo_step fuel cur rest2 acc afterComma op target hop, if_neg htt]
  all_goals
    intro target rest2 hr1 htt hty
    subst hr1
    rw [arrowGo_step fuel cur rest2 acc afterComma op target hop, if_pos htt, hty]
    rfl

/-- Witness for C1: a dotted arrow `.> 2` as the whole remaining input
records one directive with `endsTo`, not `endsFrom`, and `dotted`. -/
theorem c1_witness :
    arrowGo 3 0 [⟨.ARROW_DOTTED_TO, "", 0⟩, ⟨.NUMBER, "", 2⟩] [] false =
      .ok (2, [⟨true, false, 2, none, true⟩]) :=
  ((c1_arrow_directive_step 2 0 _ _ [] false ⟨.ARROW_DOTTED_TO, "", 0⟩ rfl
      (by decide)).2.2.2.2.2 ⟨.NUMBER, "", 2⟩ [] rfl (by decide) (by decide)).trans
    rfl

end STree

namespace STree

/-! ## Claim C3: alignment invariants -/

mutual

/-- Checker: every leaf-flagged drawable has no children (true of every
tree `drawableFromNode` builds, where only `VALUE` nodes are leaves). -/
def leavesChildless : Drawable → Bool
  | .mk data cs => (!data.is_leaf || cs.isEmpty) && leavesChildlessL cs

def leavesChildlessL : List Drawable → Bool
  | [] => true
  | c :: rest => leavesChildless c && leavesChildlessL rest

end

mutual

/-- Checker: every leaf drawable in the tree has depth `b`. -/
def leavesAtDepth (b : WithTop ℤ) : Drawable → Bool
  | .mk data cs => (!data.is_leaf || decide (data.depth = b)) && leavesAtDepthL b cs

def leavesAtDepthL (b : WithTop ℤ) : List Drawable → Bool
  | [] => true
  | c :: rest => leavesAtDepth b c && leavesAtDepthL b rest

end

mutual

/-- Checker for the claim's alignment property on internal nodes: every
non-leaf drawable with at least one child has depth exactly
`min(child.depth) - 1` (which is in particular strictly below the minimum
child depth). -/
def claimInternalDepths : Drawable → Bool
  | .mk data cs =>
    (data.is_leaf || cs.isEmpty ||
      decide (data.depth = WithTop.map (· - 1) (jsMinList (cs.map Drawable.depth)))) &&
    claimInternalDepthsL cs

def claimInternalDepthsL : List Drawable → Bool
  | [] => true
  | c :: rest => claimInternalDepths c && claimInternalDepthsL rest

end

mutual

/-- Checker for the amended alignment property: every non-leaf drawable
with at least one child has depth `min(child.depth) - 1` or depth 0 (the
nodes `moveParentsDown` skips). -/
def internalMinOrZero : Drawable → Bool
  | .mk data cs =>
    (data.is_leaf || cs.isEmpty ||
      (decide (data.depth = WithTop.map (· - 1) (jsMinList (cs.map Drawable.depth))) ||
       decide (data.depth = (0 : WithTop ℤ)))) &&
    internalMinOrZeroL cs

def internalMinOrZeroL : List Drawable → Bool
  | [] => true
  | c :: rest => internalMinOrZero c && internalMinOrZeroL rest

end

theorem withTopMap_sub1_min (a b : WithTop ℤ) :
    WithTop.map (· - 1) (min a b) = min (WithTop.map (· - 1) a) (WithTop.map (· - 1) b) := by
  induction a using WithTop.recTopCoe with
  | top => simp
  | coe x =>
    induction b using WithTop.recTopCoe with
    | top => simp
    | coe y =>
      rw [← WithTop.coe_min, WithTop.map_coe, WithTop.map_coe, WithTop.map_coe,
        ← WithTop.coe_min]
      norm_cast
      omega

theorem jsMinList_map_sub1 (l : List (WithTop ℤ)) :
    jsMinList (l.map (WithTop.map (· - 1))) = WithTop.map (· - 1) (jsMinList l) := by
  induction l with
  | nil => simp [jsMinList]
  | cons a rest ih =>
    have h1 : jsMinList (a :: rest) = min a (jsMinList rest) := rfl
    have h2 : jsMinList ((a :: rest).map (WithTop.map (· - 1))) =
        min (WithTop.map (· - 1) a) (jsMinList (rest.map (WithTop.map (· - 1)))) := rfl
    rw [h1, h2, ih, withTopMap_sub1_min]

mutual

theorem leavesAtDepth_moveLeafs : ∀ (d : Drawable) (b : WithTop ℤ),
    leavesAtDepth b (moveLeafsToBottom d b) = true
  | .mk data cs, b => by
    cases hd : data.is_leaf <;>
      simp [moveLeafsToBottom, leavesAtDepth, hd, leavesAtDepthL_moveLeafs cs b]

theorem leavesAtDepthL_moveLeafs : ∀ (l : List Drawable) (b : WithTop ℤ),
    leavesAtDepthL b (moveLeafsList l b) = true
  | [], _ => by simp [moveLeafsList, leavesAtDepthL]
  | c :: rest, b => by
    simp [moveLeafsList, leavesAtDepthL, leavesAtDepth_moveLeafs c b,
      leavesAtDepthL_moveLeafs rest b]

end

mutual

theorem leavesAtDepth_moveParents : ∀ (d : Drawable) (b : WithTop ℤ),
    leavesAtDepth b (moveParentsDown d) = leavesAtDepth b d
  | .mk data cs, b => by
    cases hd : data.is_leaf
    · by_cases hdep : data.depth ≠ (0 : WithTop ℤ) <;>
        simp [moveParentsDown, hd, hdep, leavesAtDepth, leavesAtDepthL_moveParents cs b]
    · simp [moveParentsDown, hd]

theorem leavesAtDepthL_moveParents : ∀ (l : List Drawable) (b : WithTop ℤ),
    leavesAtDepthL b (moveParentsList l) = leavesAtDepthL b l
  | [], _ => by simp [moveParentsList]
  | c :: rest, b => by
    simp [moveParentsList, leavesAtDepthL, leavesAtDepth_moveParents c b,
      leavesAtDepthL_moveParents rest b]

end

mutual

theorem internalMinOrZero_moveParents : ∀ (d : Drawable),
    leavesChildless d = true → internalMinOrZero (moveParentsDown d) = true
  | .mk data cs, h => by
    have hh := h
    unfold leavesChildless at hh
    simp only [Bool.and_eq_true, Bool.or_eq_true] at hh
    cases hd : data.is_leaf
    · have hrec := internalMinOrZeroL_moveParents cs hh.2
      by_cases hdep : data.depth ≠ (0 : WithTop ℤ)
      · -- adjusted node: new depth is min(child.depth) - 1 over processed children
        simp only [moveParentsDown, hd, Bool.false_eq_true, if_false, if_pos hdep]
        unfold internalMinOrZero
        have heq : jsMinList ((moveParentsList cs).map (fun c => WithTop.map (· - 1) c.depth)) =
            WithTop.map (· - 1) (jsMinList ((moveParentsList cs).map Drawable.depth)) := by
          rw [show (moveParentsList cs).map (fun c => WithTop.map (· - 1) c.depth) =
              ((moveParentsList cs).map Drawable.depth).map (WithTop.map (· - 1)) by simp,
            jsMinList_map_sub1]
        simp [heq, hrec]
      · simp only [moveParentsDown, hd, Bool.false_eq_true, if_false, if_neg hdep]
        unfold internalMinOrZero
        push_neg at hdep
        simp [hdep, hrec]
    · -- leaf: untouched; its children are empty by hypothesis
      have hcs : cs = [] := by
        rcases hh.1 with h1 | h1
        · rw [hd] at h1; cases h1
        · exact List.isEmpty_iff.mp h1
      subst hcs
      simp [moveParentsDown, hd, internalMinOrZero, internalMinOrZeroL]

theorem internalMinOrZeroL_moveParents : ∀ (l : List Drawable),
    leavesChildlessL l = true → internalMinOrZeroL (moveParentsList l) = true
  | [], _ => by simp [moveParentsList, internalMinOrZeroL]
  | c :: rest, h => by
    unfold leavesChildlessL at h
    simp only [Bool.and_eq_true] at h
    simp [moveParentsList, internalMinOrZeroL, internalMinOrZero_moveParents c h.1,
      internalMinOrZeroL_moveParents rest h.2]

end

mutual

theorem leavesChildless_moveLeafs : ∀ (d : Drawable) (b : WithTop ℤ),
    leavesChildless (moveLeafsToBottom d b) = leavesChildless d
  | .mk data cs, b => by
    cases hd : data.is_leaf <;> cases cs <;>
      simp [moveLeafsToBottom, moveLeafsList, leavesChildless, leavesChildlessL, hd,
        leavesChildless_moveLeafs, leavesChildlessL_moveLeafs]

theorem leavesChildlessL_moveLeafs : ∀ (l : List Drawable) (b : WithTop ℤ),
    leavesChildlessL (moveLeafsList l b) = leavesChildlessL l
  | [], _ => by simp [moveLeafsList]
  | c :: rest, b => by
    simp [moveLeafsList, leavesChildlessL, leavesChildless_moveLeafs c b,
      leavesChildlessL_moveLeafs rest b]

end

/-- C3 amended: with `m` the maximum depth of the whole (pre-adjustment)
tree, after `moveLeafsToBottom` every leaf sits at depth `m`
(LeavesAligned), and this persists through `moveParentsDown`
(BottomAligned); after `moveParentsDown`, every internal node with at least
one child has depth `min(child.depth) - 1` **or** depth 0 - internal nodes
at depth 0 (the root's immediate children) are skipped by the adjustment,
so their depth need not be strictly below their children's.  The hypothesis
(leaves have no children) holds for every drawable tree the build phase
produces. -/
theorem c3_amended_alignment (d : Drawable) (hlc : leavesChildless d = true) :
    leavesAtDepth (getMaxDepth d) (moveLeafsToBottom d (getMaxDepth d)) = true ∧
    leavesAtDepth (getMaxDepth d)
      (moveParentsDown (moveLeafsToBottom d (getMaxDepth d))) = true ∧
    internalMinOrZero (moveParentsDown (moveLeafsToBottom d (getMaxDepth d))) = true := by
  refine ⟨leavesAtDepth_moveLeafs d (getMaxDepth d), ?_, ?_⟩
  · rw [leavesAtDepth_moveParents]
    exact leavesAtDepth_moveLeafs d (getMaxDepth d)
  · exact internalMinOrZero_moveParents _ (by rw [leavesChildless_moveLeafs]; exact hlc)

/-- The syntax tree of `[S [A x]][T [U [V y]]]`: two top-level nodes of
different heights. -/
def c3snode : SNode :=
  .root [.node "S" none none [.node "A" none none [.value "x" none none [] none] [] none] [] none,
         .node "T" none none
           [.node "U" none none
             [.node "V" none none [.value "y" none none [] none] [] none] [] none] [] none]

/-- The tokens of `[S [A x]][T [U [V y]]]`. -/
def c3toks : List Token :=
  [⟨.BRACKET_OPEN, "", 0⟩, ⟨.STRING, "S", 0⟩,
   ⟨.BRACKET_OPEN, "", 0⟩, ⟨.STRING, "A", 0⟩, ⟨.STRING, "x", 0⟩, ⟨.BRACKET_CLOSE, "", 0⟩,
   ⟨.BRACKET_CLOSE, "", 0⟩,
   ⟨.BRACKET_OPEN, "", 0⟩, ⟨.STRING, "T", 0⟩,
   ⟨.BRACKET_OPEN, "", 0⟩, ⟨.STRING, "U", 0⟩,
   ⟨.BRACKET_OPEN, "", 0⟩, ⟨.STRING, "V", 0⟩, ⟨.STRING, "y", 0⟩, ⟨.BRACKET_CLOSE, "", 0⟩,
   ⟨.BRACKET_CLOSE, "", 0⟩, ⟨.BRACKET_CLOSE, "", 0⟩]

def c3tokCheck : Bool :=
  match tokenize "[S [A x]][T [U [V y]]]" with
  | .ok ts => decide (ts = c3toks)
  | _ => false

def c3parseCheck : Bool :=
  match parse c3toks with
  | .ok (.root [.node "S" none none
      [.node "A" none none [.value "x" none none [] none] [] none] [] none,
      .node "T" none none
        [.node "U" none none
          [.node "V" none none [.value "y" none none [] none] [] none] [] none] [] none]) => true
  | _ => false

/-- The drawable tree of `[S [A x]][T [U [V y]]]` (text widths measured as
character counts; the depth adjustment does not depend on the measure). -/
def c3draw : Drawable :=
  drawableFromNode (fun s => (s.data.length : ℚ)) c3snode (-1) false

/-- The drawable after the BottomAligned adjustment. -/
def c3aligned : Drawable :=
  moveParentsDown (moveLeafsToBottom c3draw (getMaxDepth c3draw))

/-- After the adjustment (maximum depth 3), `S` keeps depth 0 because
`moveParentsDown` skips nodes at depth 0, while its only child `A` was
pulled down to depth 2: so `S.depth = 0 ≠ 1 = min(child.depth) - 1`. -/
def c3depthCheck : Bool :=
  match c3aligned with
  | .mk _ [.mk sdata [.mk adata _], .mk _ _] =>
    decide (sdata.depth = (0 : WithTop ℤ)) && decide (adata.depth = (2 : WithTop ℤ))
  | _ => false

/-- Counterexample to C3: under BottomAligned on `[S [A x]][T [U [V y]]]`,
the internal node `S` (original depth 0, skipped by `moveParentsDown`)
keeps depth 0 although `min(child.depth) - 1 = 1`: the claimed equality
fails for the depth-0 internal nodes the adjustment skips. -/
theorem c3_counterexample :
    c3tokCheck = true ∧ c3parseCheck = true ∧ c3depthCheck = true ∧
    claimInternalDepths c3aligned = false := by
  refine ⟨by decide, by decide, by decide, by decide⟩

/-- Witness for the amended C3 on the scenario-1 drawable. -/
theorem c3_witness :
    leavesAtDepth (getMaxDepth c3draw) (moveLeafsToBottom c3draw (getMaxDepth c3draw)) = true ∧
    leavesAtDepth (getMaxDepth c3draw)
      (moveParentsDown (moveLeafsToBottom c3draw (getMaxDepth c3draw))) = true ∧
    internalMinOrZero (moveParentsDown (moveLeafsToBottom c3draw (getMaxDepth c3draw))) = true :=
  c3_amended_alignment c3draw (by decide)

end STree

namespace STree

/-! ## Claim C2: trailing case markers on leaf labels -/

/-- Whether a label still ends with a brace-delimited case marker, i.e.
matches the source's own trailing-marker pattern `/^(.*)\s*(\{.*\})$/`. -/
def endsWithCaseMarker (s : String) : Bool := (jsMatchTrailingBrace s).isSome

/-- The tokens of `[A B] X {Acc} [C D]` (a validated phrase with a
top-level multi-word value between two nodes). -/
def c2ctoks : List Token :=
  [⟨.BRACKET_OPEN, "", 0⟩, ⟨.STRING, "A", 0⟩, ⟨.STRING, "B", 0⟩, ⟨.BRACKET_CLOSE, "", 0⟩,
   ⟨.STRING, "X", 0⟩, ⟨.STRING, "{Acc}", 0⟩,
   ⟨.BRACKET_OPEN, "", 0⟩, ⟨.STRING, "C", 0⟩, ⟨.STRING, "D", 0⟩, ⟨.BRACKET_CLOSE, "", 0⟩]

def c2ctokCheck : Bool :=
  match tokenize "[A B] X {Acc} [C D]" with
  | .ok ts => decide (ts = c2ctoks)
  | _ => false

def c2cValidateCheck : Bool :=
  match validateTokens c2ctoks with
  | .ok _ => true
  | _ => false

/-- The parse of the phrase has, as its second top-level value, a `VALUE`
leaf whose label is exactly `X {Acc}`. -/
def c2cParseCheck : Bool :=
  match parse c2ctoks with
  | .ok (.root [.node "A" none none [.value "B" none none [] none] [] none,
                .value l none none [] none,
                .node "C" none none [.value "D" none none [] none] [] none]) =>
    decide (l = "X {Acc}")
  | _ => false

/-- Counterexample to C2: the accepted (pre-checks included) token sequence
of `[A B] X {Acc} [C D]` parses to a tree containing the top-level `VALUE`
leaf labelled `X {Acc}`, which still ends with a brace-delimited case
marker - the trailing-marker split happens only inside `parseNode`'s child
loop, never for values pushed directly onto the Root. -/
theorem c2_counterexample :
    c2ctokCheck = true ∧ c2cValidateCheck = true ∧ c2cParseCheck = true ∧
    endsWithCaseMarker "X {Acc}" = true := by
  refine ⟨by decide, by decide, by decide, by decide⟩

/-- The tokens of `[NP THE CAT {Acc}]`. -/
def c2toks : List Token :=
  [⟨.BRACKET_OPEN, "", 0⟩, ⟨.STRING, "NP", 0⟩, ⟨.STRING, "THE", 0⟩, ⟨.STRING, "CAT", 0⟩,
   ⟨.STRING, "{Acc}", 0⟩, ⟨.BRACKET_CLOSE, "", 0⟩]

def c2tokCheck : Bool :=
  match tokenize "[NP THE CAT {Acc}]" with
  | .ok ts => decide (ts = c2toks)
  | _ => false

/-- `[NP THE CAT {Acc}]` parses to a single node `NP` with the single leaf
`THE CAT` carrying `caseFeature = "{Acc}"`. -/
def c2parseCheck : Bool :=
  match parse c2toks with
  | .ok (.root [.node "NP" none none
      [.value "THE CAT" none none [] (some "{Acc}")] [] none]) => true
  | _ => false

/-- C2 amended: inside a bracketed node, a child value whose assembled
label matches the trailing-marker pattern is stored with the (single)
trailing marker split off into `caseFeature` (group 1 trimmed as the label,
group 2 as the marker); a child value whose label does not match is stored
unchanged.  Top-level values (direct children of Root) are exempt from the
split, so a leaf label there can still end with a case marker (see the
counterexample), as can a label containing several markers (only the last
is split off).  Concretely, `[NP THE CAT {Acc}]` yields the single leaf
`THE CAT` with `caseFeature = "{Acc}"`. -/
theorem c2_amended_case_split :
    (∀ (st : NodeData) (l : String) (sub sup : Option String) (arr : List ArrowDir)
        (cf : Option String) (g1 g2 : String),
      startsWithPlus l = false → jsTestFullBrace l = false →
      jsMatchTrailingBrace l = some (g1, g2) →
      classify st (.value l sub sup arr cf) =
        { st with values := st.values ++ [.value (jsTrim g1) sub sup arr (some g2)] }) ∧
    (∀ (st : NodeData) (l : String) (sub sup : Option String) (arr : List ArrowDir)
        (cf : Option String),
      startsWithPlus l = false → jsTestFullBrace l = false →
      jsMatchTrailingBrace l = none →
      classify st (.value l sub sup arr cf) =
        { st with values := st.values ++ [.value l sub sup arr cf] }) ∧
    c2tokCheck = true ∧ c2parseCheck = true := by
  refine ⟨?_, ?_, by decide, by decide⟩
  · intro st l sub sup arr cf g1 g2 h1 h2 h3
    simp [classify, h1, h2, h3]
  · intro st l sub sup arr cf h1 h2 h3
    simp [classify, h1, h2, h3]

/-- Witness for the amended C2: the classification step at the assembled
label `THE CAT {Acc}` stores the leaf `THE CAT` with case feature
`{Acc}`. -/
theorem c2_witness :
    classify ⟨"NP", none, none, [], [], none⟩ (.value "THE CAT {Acc}" none none [] none) =
      ⟨"NP", none, none, [.value "THE CAT" none none [] (some "{Acc}")], [], none⟩ :=
  c2_amended_case_split.1 ⟨"NP", none, none, [], [], none⟩ "THE CAT {Acc}" none none [] none
    "THE CAT " "{Acc}" (by decide) (by decide) (by decide)

end STree


namespace STree

/-! ## Claim C5: width monotonicity -/

mutual

/-- Checker: every label in the syntax tree consists solely of characters
matched by `.` (no line terminators) - true of every label built from
unquoted tokens, and of quoted labels without embedded newlines. -/
def labelsDotClean : SNode → Bool
  | .root vals => labelsDotCleanL vals
  | .node l _ _ vals _ _ => l.data.all jsDot && labelsDotCleanL vals
  | .value l _ _ _ _ => l.data.all jsDot

def labelsDotCleanL : List SNode → Bool
  | [] => true
  | n :: rest => labelsDotClean n && labelsDotCleanL rest

end

mutual

/-- Checker: every drawable's width is at least the sum of its children's
widths. -/
def widthsOk : Drawable → Bool
  | .mk data cs => decide (sumWidths cs ≤ data.width) && widthsOkL cs

def widthsOkL : List Drawable → Bool
  | [] => true
  | c :: rest => widthsOk c && widthsOkL rest

end

/-- `{...node, label: node.label}` is the node itself. -/
theorem withLabel_self : ∀ n : SNode, withLabel n n.label = n := by
  intro n
  cases n <;> rfl

/-- With a `.`-clean label, the case-feature guard of `drawableFromNode` is
false, so the built drawable's width is `getNodeWidth` of the node
itself. -/
theorem drawable_width (tw : String → ℚ) (n : SNode) (depth : Int) (fl : Bool)
    (h : labelsDotClean n = true) :
    (drawableFromNode tw n depth fl).data.width = getNodeWidth tw n := by
  cases n with
  | root vals =>
    cases fl <;>
      simp [drawableFromNode, SNode.isRoot, SNode.isNode, SNode.isValue, SNode.label,
        SNode.caseFeature, withLabel, Drawable.data]
  | node l sub sup vals feats cf =>
    cases fl <;>
      simp [drawableFromNode, SNode.isRoot, SNode.isNode, SNode.isValue, SNode.label,
        SNode.caseFeature, withLabel, Drawable.data]
  | value l sub sup arr cf =>
    have hl : jsTestDotStarFull l = true := by
      unfold labelsDotClean at h
      exact h
    cases fl <;>
      simp [drawableFromNode, SNode.isRoot, SNode.isNode, SNode.isValue, SNode.label,
        SNode.caseFeature, withLabel, Drawable.data, hl]

/-- The children of a built drawable are the recursively built children. -/
theorem drawable_children (tw : String → ℚ) (depth : Int) (fl : Bool) :
    (∀ vals, (drawableFromNode tw (.root vals) depth fl).children =
      drawList tw vals (depth + 1)) ∧
    (∀ l sub sup vals feats cf,
      (drawableFromNode tw (.node l sub sup vals feats cf) depth fl).children =
        drawList tw vals (depth + 1)) ∧
    (∀ l sub sup arr cf,
      (drawableFromNode tw (.value l sub sup arr cf) depth fl).children = []) := by
  refine ⟨fun vals => ?_, fun l sub sup vals feats cf => ?_, fun l sub sup arr cf => ?_⟩ <;>
    rfl

theorem sumWidths_drawList : ∀ (tw : String → ℚ) (vals : List SNode) (depth : Int),
    labelsDotCleanL vals = true → sumWidths (drawList tw vals depth) = widthSum tw vals
  | tw, [], d, _ => by simp [drawList, sumWidths, widthSum]
  | tw, n :: rest, d, h => by
    unfold labelsDotCleanL at h
    simp only [Bool.and_eq_true] at h
    simp [drawList, sumWidths, widthSum, Drawable.width,
      drawable_width tw n d false h.1, sumWidths_drawList tw rest d h.2]

/-- With nonnegative text widths, node widths are nonnegative. -/
theorem getNodeWidth_nonneg (tw : String → ℚ) (htw : ∀ s, 0 ≤ tw s) :
    ∀ n : SNode, 0 ≤ getNodeWidth tw n := by
  intro n
  have hp : (0 : ℚ) ≤ NODE_PADDING := by norm_num [NODE_PADDING]
  cases n with
  | root vals => exact le_max_left 0 _
  | node l sub sup vals feats cf =>
    have h1 := htw l
    have h2 := htw (sub.getD "")
    have h3 := htw (sup.getD "")
    simp only [getNodeWidth]
    split_ifs <;> (repeat apply le_max_of_le_left) <;> linarith
  | value l sub sup arr cf =>
    have h1 := htw l
    have h2 := htw (sub.getD "")
    have h3 := htw (sup.getD "")
    simp only [getNodeWidth]
    split_ifs <;> (repeat apply le_max_of_le_left) <;> linarith

mutual

/-- The build phase satisfies width monotonicity on `.`-clean trees with a
nonnegative measure. -/
theorem widthsOk_drawable : ∀ (tw : String → ℚ) (n : SNode) (depth : Int) (fl : Bool),
    (∀ s, 0 ≤ tw s) → labelsDotClean n = true →
    widthsOk (drawableFromNode tw n depth fl) = true
  | tw, .root vals, d, fl, htw, h => by
    have hvals : labelsDotCleanL vals = true := by
      have hh := h
      unfold labelsDotClean at hh
      exact hh
    rcases hD : drawableFromNode tw (.root vals) d fl with ⟨dd, cs'⟩
    have hcs : cs' = drawList tw vals (d + 1) := by
      have hc := (drawable_children tw d fl).1 vals
      rw [hD] at hc
      exact hc
    have hwidth : dd.width = getNodeWidth tw (.root vals) := by
      have hw := drawable_width tw (.root vals) d fl h
      rw [hD] at hw
      exact hw
    subst hcs
    unfold widthsOk
    rw [sumWidths_drawList tw vals (d + 1) hvals,
      widthsOkL_drawList tw vals (d + 1) htw hvals, hwidth]
    simp only [Bool.and_true, decide_eq_true_eq, getNodeWidth]
    exact le_max_right _ _
  | tw, .node l sub sup vals feats cf, d, fl, htw, h => by
    have hvals : labelsDotCleanL vals = true := by
      have hh := h
      unfold labelsDotClean at hh
      simp only [Bool.and_eq_true] at hh
      exact hh.2
    rcases hD : drawableFromNode tw (.node l sub sup vals feats cf) d fl with ⟨dd, cs'⟩
    have hcs : cs' = drawList tw vals (d + 1) := by
      have hc := (drawable_children tw d fl).2.1 l sub sup vals feats cf
      rw [hD] at hc
      exact hc
    have hwidth : dd.width = getNodeWidth tw (.node l sub sup vals feats cf) := by
      have hw := drawable_width tw (.node l sub sup vals feats cf) d fl h
      rw [hD] at hw
      exact hw
    subst hcs
    unfold widthsOk
    rw [sumWidths_drawList tw vals (d + 1) hvals,
      widthsOkL_drawList tw vals (d + 1) htw hvals, hwidth]
    simp only [Bool.and_true, decide_eq_true_eq, getNodeWidth]
    split_ifs <;> exact le_max_right _ _
  | tw, .value l sub sup arr cf, d, fl, htw, h => by
    rcases hD : drawableFromNode tw (.value l sub sup arr cf) d fl with ⟨dd, cs'⟩
    have hcs : cs' = [] := by
      have hc := (drawable_children tw d fl).2.2 l sub sup arr cf
      rw [hD] at hc
      exact hc
    have hwidth : dd.width = getNodeWidth tw (.value l sub sup arr cf) := by
      have hw := drawable_width tw (.value l sub sup arr cf) d fl h
      rw [hD] at hw
      exact hw
    subst hcs
    unfold widthsOk
    rw [hwidth]
    have := getNodeWidth_nonneg tw htw (.value l sub sup arr cf)
    simp [sumWidths, widthsOkL, this]

theorem widthsOkL_drawList : ∀ (tw : String → ℚ) (vals : List SNode) (depth : Int),
    (∀ s, 0 ≤ tw s) → labelsDotCleanL vals = true →
    widthsOkL (drawList tw vals depth) = true
  | tw, [], d, _, _ => by simp [drawList, widthsOkL]
  | tw, n :: rest, d, htw, h => by
    unfold labelsDotCleanL at h
    simp only [Bool.and_eq_true] at h
    simp [drawList, widthsOkL, widthsOk_drawable tw n d false htw h.1,
      widthsOkL_drawList tw rest d htw h.2]

end

end STree

namespace STree

/-- The scale conditional of the position phase always evaluates to 1 (the
source's `if` only ever re-assigns the initial value 1). -/
theorem scale_one (c1 : Prop) [Decidable c1] (c2 : Prop) [Decidable c2] :
    (if c1 then (if c2 then (1 : ℚ) else 1) else 1) = 1 := by
  split_ifs <;> rfl

/-- The position phase never changes the widths of a sibling list (top
level). -/
theorem calcPosKids_map_width : ∀ (fs vs : ℚ) (l : List Drawable) (po off : ℚ),
    (calcPosKids fs vs l po off 1).1.map Drawable.width = l.map Drawable.width
  | fs, vs, [], po, off => by simp [calcPosKids]
  | fs, vs, .mk cdata ccs :: rest, po, off => by
    simp only [calcPosKids, scale_one, mul_one]
    rcases h1 : calcPosKids fs vs ccs (off + po) 0 1 with ⟨ccs2, cha⟩
    rcases h2 : calcPosKids fs vs rest po (off + cdata.width) 1 with ⟨rest2, rha⟩
    have hrest := calcPosKids_map_width fs vs rest po (off + cdata.width)
    rw [h2] at hrest
    simp [Drawable.width, Drawable.data, hrest]

/-- `sumWidths` only depends on the widths. -/
theorem sumWidths_eq_map : ∀ l : List Drawable, sumWidths l = (l.map Drawable.width).sum
  | [] => by simp [sumWidths]
  | c :: rest => by simp [sumWidths, sumWidths_eq_map rest]

/-- The position phase preserves the width-monotonicity checker. -/
theorem widthsOkL_calcPosKids : ∀ (fs vs : ℚ) (l : List Drawable) (po off : ℚ),
    widthsOkL (calcPosKids fs vs l po off 1).1 = widthsOkL l
  | fs, vs, [], po, off => by simp [calcPosKids]
  | fs, vs, .mk cdata ccs :: rest, po, off => by
    simp only [calcPosKids, scale_one, mul_one]
    rcases h1 : calcPosKids fs vs ccs (off + po) 0 1 with ⟨ccs2, cha⟩
    rcases h2 : calcPosKids fs vs rest po (off + cdata.width) 1 with ⟨rest2, rha⟩
    have hccs := widthsOkL_calcPosKids fs vs ccs (off + po) 0
    have hccsw := calcPosKids_map_width fs vs ccs (off + po) 0
    have hrest := widthsOkL_calcPosKids fs vs rest po (off + cdata.width)
    rw [h1] at hccs hccsw
    rw [h2] at hrest
    simp only [List.map_cons, widthsOkL, widthsOk, Drawable.width, Drawable.data]
    rw [hccs, hrest, sumWidths_eq_map, sumWidths_eq_map, hccsw]

/-- `calculateDrawablePositions` preserves the width-monotonicity
checker (its scale is constantly 1). -/
theorem widthsOk_calculatePos (fs vs po : ℚ) (d : Drawable) :
    widthsOk (calculateDrawablePositions fs d vs po).1 = widthsOk d := by
  rcases d with ⟨data, cs⟩
  simp only [calculateDrawablePositions, scale_one]
  rcases h1 : calcPosKids fs vs cs po 0 1 with ⟨cs2, ha⟩
  have hw := widthsOkL_calcPosKids fs vs cs po 0
  have hm := calcPosKids_map_width fs vs cs po 0
  rw [h1] at hw hm
  simp only [widthsOk]
  rw [hw, sumWidths_eq_map, sumWidths_eq_map, hm]

/-- C5: on every tree whose labels contain no line terminators, measured
with any nonnegative text-width function, the built Drawable tree satisfies
`width ≥ sum of children's widths` at every node, and the position phase
(whose scale factor is constantly 1) preserves this. -/
theorem c5_width_monotonicity (tw : String → ℚ) (fs vs po : ℚ) (n : SNode)
    (htw : ∀ s, 0 ≤ tw s) (h : labelsDotClean n = true) :
    widthsOk (drawableFromNode tw n (-1) false) = true ∧
    widthsOk (calculateDrawablePositions fs (drawableFromNode tw n (-1) false) vs po).1 = true := by
  have h1 := widthsOk_drawable tw n (-1) false htw h
  exact ⟨h1, by rw [widthsOk_calculatePos]; exact h1⟩

/-- Witness for C5 on the scenario-1 tree with character-count widths. -/
theorem c5_witness :
    widthsOk (drawableFromNode (fun s => (s.data.length : ℚ)) c3snode (-1) false) = true ∧
    widthsOk (calculateDrawablePositions 16
      (drawableFromNode (fun s => (s.data.length : ℚ)) c3snode (-1) false) 1 0).1 = true :=
  c5_width_monotonicity (fun s => (s.data.length : ℚ)) 16 1 0 c3snode
    (fun s => by positivity) (by decide)

end STree

namespace STree

/-! ## Infrastructure for the arrow-routing claims (C6, C8) -/

mutual

/-- All drawables of a tree, the node itself first. -/
def allNodes : Drawable → List Drawable
  | .mk data cs => .mk data cs :: allNodesL cs

def allNodesL : List Drawable → List Drawable
  | [] => []
  | c :: rest => allNodes c ++ allNodesL rest

end

mutual

/-- The leaf-flagged drawables of a tree, in the in-order traversal order
of `findTargetLeaf` (a node counts before its children). -/
def leavesOf : Drawable → List Drawable
  | .mk data cs => (if data.is_leaf then [.mk data cs] else []) ++ leavesOfL cs

def leavesOfL : List Drawable → List Drawable
  | [] => []
  | c :: rest => leavesOf c ++ leavesOfL rest

end

mutual

/-- The drawables that contribute routed arrows in `makeArrowSetOn`, in
emission order: all contributors among the children first (in order), then
the node itself when it is a leaf with a non-empty directive list. -/
def arrowSources : Drawable → List Drawable
  | .mk data cs =>
    arrowSourcesL cs ++
      (if !data.is_leaf || data.arrows.isEmpty then [] else [.mk data cs])

def arrowSourcesL : List Drawable → List Drawable
  | [] => []
  | c :: rest => arrowSources c ++ arrowSourcesL rest

end

theorem ArrowSet.add_arrows (s : ArrowSet) (a : Arrow) :
    (s.add a).arrows = s.arrows ++ [a] := rfl

theorem ArrowSet.concatenate_arrows (s t : ArrowSet) :
    (s.concatenate t).arrows = s.arrows ++ t.arrows := rfl

/-- The directive loop appends exactly the resolvable directives' arrows. -/
theorem routeArrows_arrows (root : Drawable) (fs : ℚ) (src : Drawable) :
    ∀ (dirs : List ArrowDir) (s : ArrowSet),
    (routeArrows root fs src dirs s).arrows =
      s.arrows ++ dirs.filterMap
        (fun a => (findTarget root a.target).map (fun tgt => routeOne root fs src tgt a))
  | [], s => by simp [routeArrows]
  | a :: rest, s => by
    unfold routeArrows
    cases hT : findTarget root a.target with
    | none => rw [routeArrows_arrows root fs src rest s]; simp [hT]
    | some tgt =>
      rw [routeArrows_arrows root fs src rest (s.add (routeOne root fs src tgt a))]
      simp [hT, ArrowSet.add_arrows]

mutual

/-- Characterization of the routed arrow list: one arrow per directive of
each source leaf whose target resolves, in emission order; unresolvable
directives contribute nothing. -/
theorem makeArrowSetOn_arrows : ∀ (root : Drawable) (fs : ℚ) (d : Drawable),
    (makeArrowSetOn root fs d).arrows =
      (arrowSources d).bind (fun src => src.arrows.filterMap
        (fun a => (findTarget root a.target).map (fun tgt => routeOne root fs src tgt a)))
  | root, fs, .mk data cs => by
    unfold makeArrowSetOn arrowSources
    by_cases hc : (!data.is_leaf || data.arrows.isEmpty) = true
    · rw [if_pos hc, if_pos hc]
      rw [masList_arrows root fs cs ⟨[], 0⟩]
      simp
    · rw [if_neg hc, if_neg hc]
      rw [routeArrows_arrows root fs (.mk data cs) data.arrows
        (masList root fs cs ⟨[], 0⟩), masList_arrows root fs cs ⟨[], 0⟩]
      simp [Drawable.arrows, Drawable.data]

theorem masList_arrows : ∀ (root : Drawable) (fs : ℚ) (l : List Drawable) (s : ArrowSet),
    (masList root fs l s).arrows =
      s.arrows ++ (arrowSourcesL l).bind (fun src => src.arrows.filterMap
        (fun a => (findTarget root a.target).map (fun tgt => routeOne root fs src tgt a)))
  | root, fs, [], s => by simp [masList, arrowSourcesL]
  | root, fs, c :: rest, s => by
    unfold masList arrowSourcesL
    rw [masList_arrows root fs rest (s.concatenate (makeArrowSetOn root fs c)),
      ArrowSet.concatenate_arrows, makeArrowSetOn_arrows root fs c]
    simp

end

mutual

/-- Arrow sources are leaf-flagged nodes of the tree. -/
theorem arrowSources_sub : ∀ (d : Drawable) (src : Drawable),
    src ∈ arrowSources d → src ∈ allNodes d ∧ src.is_leaf = true
  | .mk data cs, src => by
    intro h
    unfold arrowSources at h
    rw [List.mem_append] at h
    rcases h with h | h
    · have := arrowSourcesL_sub cs src h
      exact ⟨by unfold allNodes; rw [List.mem_cons]; exact Or.inr this.1, this.2⟩
    · by_cases hc : (!data.is_leaf || data.arrows.isEmpty) = true
      · rw [if_pos hc] at h
        cases h
      · rw [if_neg hc] at h
        rcases List.mem_singleton.mp h with rfl
        have hl : data.is_leaf = true := by
          have h1 : (!data.is_leaf || data.arrows.isEmpty) = false :=
            eq_false_of_ne_true hc
          rcases Bool.or_eq_false_iff.mp h1 with ⟨h2, -⟩
          simpa using h2
        exact ⟨by unfold allNodes; exact List.mem_cons_self _ _, hl⟩

theorem arrowSourcesL_sub : ∀ (l : List Drawable) (src : Drawable),
    src ∈ arrowSourcesL l → src ∈ allNodesL l ∧ src.is_leaf = true
  | [], src => by intro h; cases h
  | c :: rest, src => by
    intro h
    unfold arrowSourcesL at h
    rw [List.mem_append] at h
    unfold allNodesL
    rcases h with h | h
    · have := arrowSources_sub c src h
      exact ⟨List.mem_append.mpr (Or.inl this.1), this.2⟩
    · have := arrowSourcesL_sub rest src h
      exact ⟨List.mem_append.mpr (Or.inr this.1), this.2⟩

end

end STree

namespace STree

/-- A leaf whose horizontal position lies in `[l, r]` (the leaves
`findMaxDepthBetween` ranges over). -/
def spannedLeaf (l r : ℚ) (n : Drawable) : Prop :=
  n.is_leaf = true ∧ l ≤ n.left ∧ n.left ≤ r

mutual

theorem fMDB_ge : ∀ (d : Drawable) (l r m : ℚ), m ≤ findMaxDepthBetween d l r m
  | .mk data cs, l, r, m => by
    simp only [findMaxDepthBetween]
    have h := fmdList_ge cs l r m
    split_ifs with hc
    · exact le_trans h (le_max_right _ _)
    · exact h

theorem fmdList_ge : ∀ (cs : List Drawable) (l r m : ℚ), m ≤ fmdList cs l r m
  | [], l, r, m => le_refl m
  | c :: rest, l, r, m => by
    simp only [fmdList]
    exact le_trans (le_trans (le_max_right _ m) (fmdList_ge rest l r _)) (le_refl _)

end

mutual

theorem fMDB_ub : ∀ (d : Drawable) (l r m : ℚ) (n : Drawable),
    n ∈ allNodes d → spannedLeaf l r n → n.top ≤ findMaxDepthBetween d l r m
  | .mk data cs, l, r, m, n, hmem, hsp => by
    simp only [findMaxDepthBetween]
    unfold allNodes at hmem
    rw [List.mem_cons] at hmem
    rcases hmem with rfl | hmem
    · have hc : (data.is_leaf && decide (l ≤ data.left) && decide (data.left ≤ r)) = true := by
        rcases hsp with ⟨h1, h2, h3⟩
        simp only [Drawable.is_leaf, Drawable.left, Drawable.data] at h1 h2 h3
        simp [h1, h2, h3]
      rw [if_pos hc]
      exact le_max_left _ _
    · have h := fmdList_ub cs l r m n hmem hsp
      split_ifs with hc
      · exact le_trans h (le_max_right _ _)
      · exact h

theorem fmdList_ub : ∀ (cs : List Drawable) (l r m : ℚ) (n : Drawable),
    n ∈ allNodesL cs → spannedLeaf l r n → n.top ≤ fmdList cs l r m
  | [], l, r, m, n, hmem, _ => by cases hmem
  | c :: rest, l, r, m, n, hmem, hsp => by
    unfold allNodesL at hmem
    rw [List.mem_append] at hmem
    simp only [fmdList]
    rcases hmem with hmem | hmem
    · exact le_trans (le_trans (fMDB_ub c l r m n hmem hsp) (le_max_left _ _))
        (fmdList_ge rest l r _)
    · exact fmdList_ub rest l r _ n hmem hsp

end

mutual

theorem fMDB_mem : ∀ (d : Drawable) (l r m : ℚ),
    findMaxDepthBetween d l r m = m ∨
    ∃ n ∈ allNodes d, spannedLeaf l r n ∧ findMaxDepthBetween d l r m = n.top
  | .mk data cs, l, r, m => by
    simp only [findMaxDepthBetween]
    split_ifs with hc
    · rcases le_total data.top (fmdList cs l r m) with h | h
      · rw [max_eq_right h]
        rcases fmdList_mem cs l r m with h2 | ⟨n, hn, hsp, heq⟩
        · exact Or.inl h2
        · exact Or.inr ⟨n, by unfold allNodes; exact List.mem_cons_of_mem _ hn, hsp, heq⟩
      · rw [max_eq_left h]
        refine Or.inr ⟨.mk data cs, by unfold allNodes; exact List.mem_cons_self _ _, ?_, rfl⟩
        simp only [Bool.and_eq_true, decide_eq_true_eq] at hc
        exact ⟨hc.1.1, hc.1.2, hc.2⟩
    · rcases fmdList_mem cs l r m with h2 | ⟨n, hn, hsp, heq⟩
      · exact Or.inl h2
      · exact Or.inr ⟨n, by unfold allNodes; exact List.mem_cons_of_mem _ hn, hsp, heq⟩

theorem fmdList_mem : ∀ (cs : List Drawable) (l r m : ℚ),
    fmdList cs l r m = m ∨
    ∃ n ∈ allNodesL cs, spannedLeaf l r n ∧ fmdList cs l r m = n.top
  | [], l, r, m => Or.inl rfl
  | c :: rest, l, r, m => by
    simp only [fmdList]
    rcases fmdList_mem rest l r (max (findMaxDepthBetween c l r m) m) with h2 | ⟨n, hn, hsp, heq⟩
    · rw [h2]
      rcases le_total (findMaxDepthBetween c l r m) m with h | h
      · rw [max_eq_right h]
        exact Or.inl rfl
      · rw [max_eq_left h]
        rcases fMDB_mem c l r m with h3 | ⟨n, hn, hsp, heq⟩
        · exact Or.inl h3
        · exact Or.inr ⟨n, by
            unfold allNodesL
            exact List.mem_append.mpr (Or.inl hn), hsp, heq⟩
    · exact Or.inr ⟨n, by
        unfold allNodesL
        exact List.mem_append.mpr (Or.inr hn), hsp, heq⟩

end

/-- The `ArrowSet` bookkeeping invariant: `maxBottom` bounds every arrow's
`bottom` and is either the initial 0 or one of them. -/
def arrowSetInv (s : ArrowSet) : Prop :=
  (∀ a ∈ s.arrows, a.bottom ≤ s.maxBottom) ∧
  (s.maxBottom = 0 ∨ ∃ a ∈ s.arrows, s.maxBottom = a.bottom)

theorem arrowSetInv_empty : arrowSetInv ⟨[], 0⟩ := by
  constructor
  · intro a ha; cases ha
  · exact Or.inl rfl

theorem arrowSetInv_add (s : ArrowSet) (a : Arrow) (h : arrowSetInv s) :
    arrowSetInv (s.add a) := by
  constructor
  · intro b hb
    rcases List.mem_append.mp hb with hb | hb
    · exact le_trans (h.1 b hb) (le_max_left _ _)
    · rcases List.mem_singleton.mp hb with rfl
      exact le_max_right _ _
  · rcases le_total s.maxBottom a.bottom with hle | hle
    · refine Or.inr ⟨a, List.mem_append.mpr (Or.inr (List.mem_singleton.mpr rfl)), ?_⟩
      show max s.maxBottom a.bottom = a.bottom
      exact max_eq_right hle
    · have : (s.add a).maxBottom = s.maxBottom := max_eq_left hle
      rw [this]
      rcases h.2 with h2 | ⟨b, hb, heq⟩
      · exact Or.inl h2
      · exact Or.inr ⟨b, List.mem_append.mpr (Or.inl hb), heq⟩

theorem arrowSetInv_concat (s t : ArrowSet) (hs : arrowSetInv s) (ht : arrowSetInv t) :
    arrowSetInv (s.concatenate t) := by
  constructor
  · intro b hb
    rcases List.mem_append.mp hb with hb | hb
    · exact le_trans (hs.1 b hb) (le_max_left _ _)
    · exact le_trans (ht.1 b hb) (le_max_right _ _)
  · rcases le_total s.maxBottom t.maxBottom with hle | hle
    · have : (s.concatenate t).maxBottom = t.maxBottom := max_eq_right hle
      rw [this]
      rcases ht.2 with h2 | ⟨b, hb, heq⟩
      · exact Or.inl h2
      · exact Or.inr ⟨b, List.mem_append.mpr (Or.inr hb), heq⟩
    · have : (s.concatenate t).maxBottom = s.maxBottom := max_eq_left hle
      rw [this]
      rcases hs.2 with h2 | ⟨b, hb, heq⟩
      · exact Or.inl h2
      · exact Or.inr ⟨b, List.mem_append.mpr (Or.inl hb), heq⟩

theorem arrowSetInv_routeArrows (root : Drawable) (fs : ℚ) (src : Drawable) :
    ∀ (dirs : List ArrowDir) (s : ArrowSet),
    arrowSetInv s → arrowSetInv (routeArrows root fs src dirs s)
  | [], s, h => h
  | a :: rest, s, h => by
    unfold routeArrows
    cases hT : findTarget root a.target with
    | none => exact arrowSetInv_routeArrows root fs src rest s h
    | some tgt =>
      exact arrowSetInv_routeArrows root fs src rest _ (arrowSetInv_add s _ h)

mutual

theorem arrowSetInv_makeArrowSetOn : ∀ (root : Drawable) (fs : ℚ) (d : Drawable),
    arrowSetInv (makeArrowSetOn root fs d)
  | root, fs, .mk data cs => by
    unfold makeArrowSetOn
    split_ifs with hc
    · exact arrowSetInv_masList root fs cs ⟨[], 0⟩ arrowSetInv_empty
    · exact arrowSetInv_routeArrows root fs (.mk data cs) data.arrows _
        (arrowSetInv_masList root fs cs ⟨[], 0⟩ arrowSetInv_empty)

theorem arrowSetInv_masList : ∀ (root : Drawable) (fs : ℚ) (l : List Drawable) (s : ArrowSet),
    arrowSetInv s → arrowSetInv (masList root fs l s)
  | root, fs, [], s, h => h
  | root, fs, c :: rest, s, h => by
    unfold masList
    exact arrowSetInv_masList root fs rest _
      (arrowSetInv_concat s _ h (arrowSetInv_makeArrowSetOn root fs c))

end

end STree

namespace STree

mutual

/-- When the target is not found in a subtree, the running count advances
by exactly the subtree's leaf count. -/
theorem findTargetLeaf_count : ∀ (d : Drawable) (idx count : Nat),
    (findTargetLeaf d idx count).2 = none →
    (findTargetLeaf d idx count).1 = count + (leavesOf d).length
  | .mk data cs, idx, count => by
    intro h
    cases hl : data.is_leaf with
    | false =>
      simp only [findTargetLeaf, hl, Bool.false_eq_true, if_false, false_and] at h ⊢
      rw [findTargetList_count cs idx count h]
      simp [leavesOf, hl]
    | true =>
      by_cases he : count + 1 = idx
      · exfalso
        have hunf : findTargetLeaf (Drawable.mk data cs) idx count
            = (count + 1, some (Drawable.mk data cs)) := by
          simp [findTargetLeaf, hl, he]
        rw [hunf] at h
        exact Option.noConfusion h
      · have hunf : findTargetLeaf (Drawable.mk data cs) idx count
            = findTargetList cs idx (count + 1) := by
          simp [findTargetLeaf, hl, he]
        rw [hunf] at h ⊢
        rw [findTargetList_count cs idx (count + 1) h]
        have hleo : leavesOf (Drawable.mk data cs) = Drawable.mk data cs :: leavesOfL cs := by
          simp [leavesOf, hl]
        rw [hleo]
        simp only [List.length_cons]
        omega

theorem findTargetList_count : ∀ (l : List Drawable) (idx count : Nat),
    (findTargetList l idx count).2 = none →
    (findTargetList l idx count).1 = count + (leavesOfL l).length
  | [], idx, count => by
    intro _
    simp [findTargetList, leavesOfL]
  | c :: rest, idx, count => by
    intro h
    rcases hF : findTargetLeaf c idx count with ⟨cnt, res⟩
    cases res with
    | some t =>
      simp only [findTargetList, hF] at h
      exact Option.noConfusion h
    | none =>
      simp only [findTargetList, hF] at h ⊢
      have hc : cnt = count + (leavesOf c).length := by
        have := findTargetLeaf_count c idx count (by rw [hF])
        rw [hF] at this
        exact this
      rw [findTargetList_count rest idx cnt h, hc]
      simp only [leavesOfL, List.length_append]
      omega

end

mutual

/-- In-order indexing of `findTargetLeaf`: with a running count of `count`,
the result is the `(idx - count)`-th leaf of the subtree (1-based), when
that exists and `count < idx`. -/
theorem findTargetLeaf_snd : ∀ (d : Drawable) (idx count : Nat),
    (findTargetLeaf d idx count).2 =
      (if count < idx then (leavesOf d)[idx - count - 1]? else none)
  | .mk data cs, idx, count => by
    cases hl : data.is_leaf with
    | false =>
      simp only [findTargetLeaf, hl, Bool.false_eq_true, false_and, if_false]
      rw [findTargetList_snd cs idx count]
      simp [leavesOf, hl]
    | true =>
      by_cases he : count + 1 = idx
      · have h1 : count < idx := by omega
        have h2 : idx - count - 1 = 0 := by omega
        simp [findTargetLeaf, hl, he, leavesOf, h1, h2]
      · have hunf : findTargetLeaf (Drawable.mk data cs) idx count
            = findTargetList cs idx (count + 1) := by
          simp [findTargetLeaf, hl, he]
        rw [hunf, findTargetList_snd cs idx (count + 1)]
        have hleo : leavesOf (Drawable.mk data cs) = Drawable.mk data cs :: leavesOfL cs := by
          simp [leavesOf, hl]
        rw [hleo]
        by_cases hlt : count + 1 < idx
        · have h1 : count < idx := by omega
          have h2 : idx - count - 1 = (idx - (count + 1) - 1) + 1 := by omega
          rw [if_pos hlt, if_pos h1, h2]
          simp
        · have h1 : ¬count < idx := by omega
          rw [if_neg hlt, if_neg h1]

theorem findTargetList_snd : ∀ (l : List Drawable) (idx count : Nat),
    (findTargetList l idx count).2 =
      (if count < idx then (leavesOfL l)[idx - count - 1]? else none)
  | [], idx, count => by
    simp only [findTargetList, leavesOfL, List.getElem?_nil]
    split_ifs <;> rfl
  | c :: rest, idx, count => by
    rcases hF : findTargetLeaf c idx count with ⟨cnt, res⟩
    have hB := findTargetLeaf_snd c idx count
    rw [hF] at hB
    cases res with
    | some t =>
      simp only [findTargetList, hF]
      split_ifs at hB with h1
      · have hB' : (leavesOf c)[idx - count - 1]? = some t := hB.symm
        have hlen : idx - count - 1 < (leavesOf c).length := getElem?_some_lt hB'
        rw [if_pos h1]
        simp only [leavesOfL]
        rw [List.getElem?_append, if_pos hlen]
        exact hB
    | none =>
      simp only [findTargetList, hF]
      have hc : cnt = count + (leavesOf c).length := by
        have := findTargetLeaf_count c idx count (by rw [hF])
        rw [hF] at this
        exact this
      rw [findTargetList_snd rest idx cnt]
      by_cases h1 : count < idx
      · rw [if_pos h1] at hB
        have hB' : (leavesOf c)[idx - count - 1]? = none := hB.symm
        have hnone : (leavesOf c).length ≤ idx - count - 1 :=
          List.getElem?_eq_none_iff.mp hB'
        have h3 : cnt < idx := by omega
        rw [if_pos h1, if_pos h3]
        simp only [leavesOfL]
        rw [List.getElem?_append, if_neg (by omega)]
        have h2 : idx - count - 1 - (leavesOf c).length = idx - cnt - 1 := by omega
        rw [h2]
      · rw [if_neg h1]
        have h3 : ¬cnt < idx := by omega
        rw [if_neg h3]

end

end STree

namespace STree

/-- C8: arrow directives whose 1-based in-order leaf index resolves to no
leaf are silently dropped during routing. -/
theorem c8_unresolved_targets_dropped (root : Drawable) (fs : ℚ) :
    ((makeArrowSet root fs).arrows =
      (arrowSources root).bind (fun src => src.arrows.filterMap
        (fun a => (findTarget root a.target).map
          (fun tgt => routeOne root fs src tgt a)))) ∧
    (∀ idx : Nat, 1 ≤ idx → findTarget root idx = (leavesOf root)[idx - 1]?) ∧
    findTarget root 0 = none := by
  refine ⟨?_, ?_, ?_⟩
  · rw [makeArrowSet]
    exact makeArrowSetOn_arrows root fs root
  · intro idx h1
    unfold findTarget
    rw [findTargetLeaf_snd root idx 0, if_pos (show 0 < idx by omega)]
    norm_num
  · unfold findTarget
    rw [findTargetLeaf_snd root 0 0, if_neg (show ¬(0 < 0) by omega)]

/-- A small laid-out tree with two leaves, the first carrying one arrow
directive aimed at leaf index 2. -/
def c8root : Drawable :=
  .mk ⟨"R", none, none, 40, 0, false, [], [], none, 0, 0⟩
    [ .mk ⟨"a", none, none, 20, 1, true, [⟨true, false, 2, none, false⟩], [], none, 0, 30⟩ [],
      .mk ⟨"b", none, none, 20, 1, true, [], [], none, 20, 30⟩ [] ]

theorem c8_witness :
    (1 : Nat) ≤ 2 ∧ findTarget c8root 2 = (leavesOf c8root)[2 - 1]? :=
  ⟨by decide, (c8_unresolved_targets_dropped c8root 16).2.1 2 (by decide)⟩

end STree

namespace STree

/-- Every routed arrow's control height is nonnegative (it is 1.4 times a
maximum seeded at 0). -/
theorem arrow_bottom_nonneg (root : Drawable) (fs : ℚ) :
    ∀ a ∈ (makeArrowSetOn root fs root).arrows, 0 ≤ a.bottom := by
  intro a ha
  rw [makeArrowSetOn_arrows] at ha
  rcases List.mem_bind.mp ha with ⟨src, hsrc, h2⟩
  rcases List.mem_filterMap.mp h2 with ⟨dir, hdir, hopt⟩
  rcases Option.map_eq_some'.mp hopt with ⟨tgt, hT, hR⟩
  rw [← hR]
  have hbot : (routeOne root fs src tgt dir).bottom = (1.4 : ℚ) *
      findMaxDepthBetween root (min src.left tgt.left) (max src.left tgt.left) 0 := rfl
  have h1 : (0 : ℚ) ≤
      findMaxDepthBetween root (min src.left tgt.left) (max src.left tgt.left) 0 :=
    fMDB_ge root _ _ 0
  rw [hbot]
  linarith

/-- C6: each routed arrow's bottom is 1.4 times the top of some
horizontally spanned leaf that dominates every spanned leaf's top (i.e.
1.4 times the maximum spanned-leaf top), and the ArrowSet's maxBottom
bounds all bottoms and is attained by one of them when any arrow exists. -/
theorem c6_arrow_bottoms (root : Drawable) (fs : ℚ)
    (h : ∀ n ∈ allNodes root, n.is_leaf = true → 0 ≤ n.top) :
    (∀ arrow ∈ (makeArrowSet root fs).arrows,
      ∃ src tgt dir, src ∈ allNodes root ∧ src.is_leaf = true ∧ dir ∈ src.arrows ∧
        findTarget root dir.target = some tgt ∧
        arrow = routeOne root fs src tgt dir ∧
        (∃ n ∈ allNodes root,
          spannedLeaf (min src.left tgt.left) (max src.left tgt.left) n ∧
          arrow.bottom = (1.4 : ℚ) * n.top) ∧
        (∀ n ∈ allNodes root,
          spannedLeaf (min src.left tgt.left) (max src.left tgt.left) n →
          (1.4 : ℚ) * n.top ≤ arrow.bottom)) ∧
    (∀ arrow ∈ (makeArrowSet root fs).arrows,
      arrow.bottom ≤ (makeArrowSet root fs).maxBottom) ∧
    ((makeArrowSet root fs).arrows ≠ [] →
      ∃ arrow ∈ (makeArrowSet root fs).arrows,
        (makeArrowSet root fs).maxBottom = arrow.bottom) := by
  have hinv := arrowSetInv_makeArrowSetOn root fs root
  refine ⟨?_, ?_, ?_⟩
  · intro arrow hmem
    rw [makeArrowSet, makeArrowSetOn_arrows] at hmem
    rcases List.mem_bind.mp hmem with ⟨src, hsrc, hmem2⟩
    rcases List.mem_filterMap.mp hmem2 with ⟨dir, hdir, hopt⟩
    rcases Option.map_eq_some'.mp hopt with ⟨tgt, hT, hR⟩
    have hsub := arrowSources_sub root src hsrc
    refine ⟨src, tgt, dir, hsub.1, hsub.2, hdir, hT, hR.symm, ?_, ?_⟩
    · have hbot : arrow.bottom = (1.4 : ℚ) *
          findMaxDepthBetween root (min src.left tgt.left) (max src.left tgt.left) 0 := by
        rw [← hR]
        rfl
      rcases fMDB_mem root (min src.left tgt.left) (max src.left tgt.left) 0 with
        h0 | ⟨n, hn, hsp, heq⟩
      · have hspsrc : spannedLeaf (min src.left tgt.left) (max src.left tgt.left) src :=
          ⟨hsub.2, min_le_left _ _, le_max_left _ _⟩
        have h1 : src.top ≤
            findMaxDepthBetween root (min src.left tgt.left) (max src.left tgt.left) 0 :=
          fMDB_ub root _ _ 0 src hsub.1 hspsrc
        have h2 : (0 : ℚ) ≤ src.top := h src hsub.1 hsub.2
        have h3 : src.top =
            findMaxDepthBetween root (min src.left tgt.left) (max src.left tgt.left) 0 :=
          le_antisymm h1 (by rw [h0]; exact h2)
        exact ⟨src, hsub.1, hspsrc, by rw [hbot, ← h3]⟩
      · exact ⟨n, hn, hsp, by rw [hbot, heq]⟩
    · intro n hn hsp
      have h1 : n.top ≤
          findMaxDepthBetween root (min src.left tgt.left) (max src.left tgt.left) 0 :=
        fMDB_ub root _ _ 0 n hn hsp
      have hbot : arrow.bottom = (1.4 : ℚ) *
          findMaxDepthBetween root (min src.left tgt.left) (max src.left tgt.left) 0 := by
        rw [← hR]
        rfl
      rw [hbot]
      linarith
  · intro arrow hmem
    exact hinv.1 arrow hmem
  · intro hne
    rcases hinv.2 with h0 | ⟨a, ha, heq⟩
    · rcases List.exists_mem_of_ne_nil _ hne with ⟨a, ha⟩
      refine ⟨a, ha, le_antisymm ?_ ?_⟩
      · rw [makeArrowSet] at ha ⊢
        rw [h0]
        exact arrow_bottom_nonneg root fs a ha
      · exact hinv.1 a ha
    · exact ⟨a, ha, heq⟩

/-- A laid-out two-leaf tree whose first leaf carries one resolvable arrow
directive; used to instantiate the C6 statement concretely. -/
def c6root : Drawable :=
  .mk ⟨"R", none, none, 40, 0, false, [], [], none, 0, 0⟩
    [ .mk ⟨"a", none, none, 20, 1, true, [⟨true, false, 2, none, false⟩], [], none, 0, 30⟩ [],
      .mk ⟨"b", none, none, 20, 1, true, [], [], none, 20, 32⟩ [] ]

theorem c6_witness :
    (∀ n ∈ allNodes c6root, n.is_leaf = true → 0 ≤ n.top) ∧
    ((∀ arrow ∈ (makeArrowSet c6root 16).arrows,
      ∃ src tgt dir, src ∈ allNodes c6root ∧ src.is_leaf = true ∧ dir ∈ src.arrows ∧
        findTarget c6root dir.target = some tgt ∧
        arrow = routeOne c6root 16 src tgt dir ∧
        (∃ n ∈ allNodes c6root,
          spannedLeaf (min src.left tgt.left) (max src.left tgt.left) n ∧
          arrow.bottom = (1.4 : ℚ) * n.top) ∧
        (∀ n ∈ allNodes c6root,
          spannedLeaf (min src.left tgt.left) (max src.left tgt.left) n →
          (1.4 : ℚ) * n.top ≤ arrow.bottom)) ∧
    (∀ arrow ∈ (makeArrowSet c6root 16).arrows,
      arrow.bottom ≤ (makeArrowSet c6root 16).maxBottom) ∧
    ((makeArrowSet c6root 16).arrows ≠ [] →
      ∃ arrow ∈ (makeArrowSet c6root 16).arrows,
        (makeArrowSet c6root 16).maxBottom = arrow.bottom)) :=
  ⟨by decide, c6_arrow_bottoms c6root 16 (by decide)⟩

end STree

namespace STree

/-- Keys of an association-list map, in order. -/
def mapKeys (m : List (String × Nat)) : List String := m.map Prod.fst

/-- The label count described by the (amended) spec sentence: non-leaf
nodes of the whole tree that do not already carry a (truthy) subscript. -/
def specCountLabel (d : Drawable) (l : String) : Nat :=
  (allNodes d).countP
    (fun n => ! n.is_leaf && !jsTruthyOpt n.subscript && decide (n.label = l))

def specCountLabelL (cs : List Drawable) (l : String) : Nat :=
  (allNodesL cs).countP
    (fun n => ! n.is_leaf && !jsTruthyOpt n.subscript && decide (n.label = l))

/-- The label count described by the original claim sentence: non-leaf
nodes ignoring those carrying a subscript or a superscript. -/
def specCountLabelOrig (d : Drawable) (l : String) : Nat :=
  (allNodes d).countP
    (fun n => ! n.is_leaf && !jsTruthyOpt n.subscript && !jsTruthyOpt n.superscript
      && decide (n.label = l))

mutual

/-- The assignment pass as the spec words it: in pre-order, each non-leaf
node carrying neither subscript nor superscript whose label is duplicated
receives the next sequential number for its label. -/
def specAssign : Drawable → (String → Bool) → (String → Nat) → Drawable × (String → Nat)
  | .mk data cs, dup, tally =>
    let (data, tally) :=
      if ! data.is_leaf && !jsTruthyOpt data.subscript && !jsTruthyOpt data.superscript
          && dup data.label then
        let tally := fun k => if k = data.label then tally data.label + 1 else tally k
        ({ data with subscript := some (toString (tally data.label)) }, tally)
      else (data, tally)
    let (cs', tally') := specAssignL cs dup tally
    (.mk data cs', tally')

def specAssignL : List Drawable → (String → Bool) → (String → Nat) → List Drawable × (String → Nat)
  | [], _, tally => ([], tally)
  | c :: rest, dup, tally =>
    let (c', tally') := specAssign c dup tally
    let (rest', tally'') := specAssignL rest dup tally'
    (c' :: rest', tally'')

end

theorem mapGet_cons (p : String × Nat) (m : List (String × Nat)) (k : String) :
    mapGet (p :: m) k = if p.1 = k then some p.2 else mapGet m k := by
  by_cases h : p.1 = k
  · simp [mapGet, List.find?, h]
  · simp [mapGet, List.find?, h]

theorem mapGet_eq_none_of_not_mem : ∀ (m : List (String × Nat)) (k : String),
    k ∉ mapKeys m → mapGet m k = none
  | [], k, _ => rfl
  | p :: rest, k, h => by
    have h1 : p.1 ≠ k := fun hh => h (by simp [mapKeys, hh])
    have h2 : k ∉ mapKeys rest := fun hh => h (by
      simp only [mapKeys, List.map_cons, List.mem_cons]
      exact Or.inr hh)
    rw [mapGet_cons, if_neg h1]
    exact mapGet_eq_none_of_not_mem rest k h2

theorem any_of_mapGet_some (a : List (String × Nat)) (k : String) (w : Nat)
    (h : mapGet a k = some w) : (a.any fun p => decide (p.1 = k)) = true := by
  unfold mapGet at h
  rcases Option.map_eq_some'.mp h with ⟨e, hfind, _⟩
  have hmem := List.mem_of_find?_eq_some hfind
  have hp : (fun p : String × Nat => decide (p.1 = k)) e = true :=
    @List.find?_some (String × Nat) (fun p => decide (p.1 = k)) e a hfind
  exact List.any_eq_true.mpr ⟨e, hmem, hp⟩

theorem mapGet_map_update : ∀ (a : List (String × Nat)) (k : String) (v : Nat) (k' : String),
    mapGet (a.map (fun p => if p.1 = k then (k, v) else p)) k' =
      if k' = k then (if a.any (fun p => decide (p.1 = k)) then some v else none)
      else mapGet a k'
  | [], k, v, k' => by
    simp only [List.map_nil, List.any_nil, if_false, Bool.false_eq_true]
    split_ifs <;> rfl
  | p :: rest, k, v, k' => by
    simp only [List.map_cons, List.any_cons]
    by_cases h : p.1 = k
    · rw [if_pos h, mapGet_cons]
      by_cases h2 : k = k'
      · rw [if_pos h2, if_pos h2.symm]
        have hb : (decide (p.1 = k) || rest.any fun p => decide (p.1 = k)) = true := by
          simp [h]
        rw [if_pos hb]
      · rw [if_neg h2, mapGet_map_update rest k v k',
          if_neg (fun hh : k' = k => h2 hh.symm), mapGet_cons,
          if_neg (fun hh : p.1 = k' => h2 (h.symm.trans hh)),
          if_neg (fun hh : k' = k => h2 hh.symm)]
    · rw [if_neg h, mapGet_cons]
      by_cases h3 : k' = k
      · rw [if_neg (fun hh : p.1 = k' => h (hh.trans h3)), mapGet_map_update rest k v k',
          if_pos h3, if_pos h3]
        exact if_congr (by simp [h]) rfl rfl
      · rw [if_neg h3, mapGet_cons, mapGet_map_update rest k v k', if_neg h3]

theorem mapGet_append_pair : ∀ (a : List (String × Nat)) (k : String) (v : Nat) (k' : String),
    mapGet (a ++ [(k, v)]) k' =
      (match mapGet a k' with
        | some w => some w
        | none => if k = k' then some v else none)
  | [], k, v, k' => by
    rw [List.nil_append, mapGet_cons]
    rfl
  | p :: rest, k, v, k' => by
    rw [List.cons_append, mapGet_cons, mapGet_cons]
    by_cases h : p.1 = k'
    · rw [if_pos h, if_pos h]
    · rw [if_neg h, if_neg h, mapGet_append_pair rest k v k']

theorem mapGet_mapSet (a : List (String × Nat)) (k : String) (v : Nat) (k' : String) :
    mapGet (mapSet a k v) k' = if k' = k then some v else mapGet a k' := by
  unfold mapSet
  by_cases hany : (a.any fun p => decide (p.1 = k)) = true
  · rw [if_pos hany, mapGet_map_update]
    by_cases h : k' = k
    · rw [if_pos h, if_pos h, if_pos hany]
    · rw [if_neg h, if_neg h]
  · rw [if_neg hany, mapGet_append_pair]
    by_cases h : k' = k
    · cases hg : mapGet a k' with
      | some w =>
        exact absurd (any_of_mapGet_some a k' w hg) (h ▸ hany)
      | none =>
        rw [if_pos h, if_pos h.symm]
    · rw [if_neg h]
      cases hg : mapGet a k' with
      | some w => rfl
      | none => rw [if_neg (fun hh : k = k' => h hh.symm)]

end STree

namespace STree

theorem mapKeys_mapSet (a : List (String × Nat)) (k : String) (v : Nat) :
    mapKeys (mapSet a k v) =
      if (a.any fun p => decide (p.1 = k)) then mapKeys a else mapKeys a ++ [k] := by
  unfold mapSet mapKeys
  split_ifs with h
  · rw [List.map_map]
    apply List.map_congr_left
    intro p _
    by_cases hh : p.1 = k
    · simp [hh]
    · simp [hh]
  · simp

theorem nodup_mapSet {a : List (String × Nat)} (k : String) (v : Nat)
    (h : (mapKeys a).Nodup) : (mapKeys (mapSet a k v)).Nodup := by
  rw [mapKeys_mapSet]
  split_ifs with hany
  · exact h
  · have hk : k ∉ mapKeys a := by
      intro hmem
      rcases List.mem_map.mp hmem with ⟨p, hp, hpk⟩
      exact hany (List.any_eq_true.mpr ⟨p, hp, by simp [hpk]⟩)
    simp [List.nodup_append, h, hk]

theorem nodup_mapMerge : ∀ (b a : List (String × Nat)),
    (mapKeys a).Nodup → (mapKeys (mapMerge a b)).Nodup
  | [], a, h => h
  | p :: bs, a, h => by
    have hstep : mapMerge a (p :: bs)
        = mapMerge (mapSet a p.1 ((mapGet a p.1).getD 0 + p.2)) bs := rfl
    rw [hstep]
    exact nodup_mapMerge bs _ (nodup_mapSet _ _ h)

theorem getD_mapMerge : ∀ (b a : List (String × Nat)) (k : String),
    (mapKeys b).Nodup →
    (mapGet (mapMerge a b) k).getD 0 = (mapGet a k).getD 0 + (mapGet b k).getD 0
  | [], a, k, _ => by
    show (mapGet a k).getD 0 = (mapGet a k).getD 0 + (mapGet [] k).getD 0
    rfl
  | p :: bs, a, k, h => by
    have hstep : mapMerge a (p :: bs)
        = mapMerge (mapSet a p.1 ((mapGet a p.1).getD 0 + p.2)) bs := rfl
    have hnd : (mapKeys bs).Nodup := by
      simp only [mapKeys, List.map_cons, List.nodup_cons] at h
      exact h.2
    have hnotin : p.1 ∉ mapKeys bs := by
      simp only [mapKeys, List.map_cons, List.nodup_cons] at h
      exact h.1
    rw [hstep, getD_mapMerge bs _ k hnd, mapGet_mapSet, mapGet_cons]
    by_cases hk : k = p.1
    · rw [if_pos hk, if_pos hk.symm]
      rw [hk, mapGet_eq_none_of_not_mem bs p.1 hnotin]
      simp only [Option.getD_some, Option.getD_none]
      omega
    · rw [if_neg hk, if_neg (fun hh : p.1 = k => hk hh.symm)]

theorem mem_mapSet (a : List (String × Nat)) (k : String) (v : Nat) :
    ∀ p ∈ mapSet a k v, p ∈ a ∨ p = (k, v) := by
  unfold mapSet
  split_ifs with h
  · intro p hp
    rcases List.mem_map.mp hp with ⟨q, hq, hfq⟩
    by_cases hh : q.1 = k
    · right
      rw [← hfq, if_pos hh]
    · left
      rw [← hfq, if_neg hh]
      exact hq
  · intro p hp
    rcases List.mem_append.mp hp with h1 | h1
    · exact Or.inl h1
    · exact Or.inr (List.mem_singleton.mp h1)

/-- All stored counts are positive. -/
def mapPos (m : List (String × Nat)) : Prop := ∀ p ∈ m, 1 ≤ p.2

theorem mapPos_mapSet {a : List (String × Nat)} {k : String} {v : Nat}
    (h : mapPos a) (hv : 1 ≤ v) : mapPos (mapSet a k v) := by
  intro p hp
  rcases mem_mapSet a k v p hp with h1 | h1
  · exact h p h1
  · rw [h1]
    exact hv

theorem mapPos_mapMerge : ∀ (b a : List (String × Nat)),
    mapPos a → mapPos b → mapPos (mapMerge a b)
  | [], a, ha, _ => ha
  | p :: bs, a, ha, hb => by
    have hstep : mapMerge a (p :: bs)
        = mapMerge (mapSet a p.1 ((mapGet a p.1).getD 0 + p.2)) bs := rfl
    rw [hstep]
    have hv : 1 ≤ (mapGet a p.1).getD 0 + p.2 := by
      have := hb p (List.mem_cons_self _ _)
      omega
    exact mapPos_mapMerge bs _ (mapPos_mapSet ha hv)
      (fun q hq => hb q (List.mem_cons_of_mem _ hq))

mutual

theorem nodup_countNodes : ∀ (d : Drawable), (mapKeys (countNodes d)).Nodup
  | .mk data cs => by
    unfold countNodes
    split_ifs with h1 h2
    · exact List.nodup_nil
    · have hm : mapInc [] data.label = [(data.label, 1)] := rfl
      rw [hm]
      exact nodup_countNodesList cs _ (by simp [mapKeys])
    · exact nodup_countNodesList cs [] (by simp [mapKeys])

theorem nodup_countNodesList : ∀ (cs : List Drawable) (m : List (String × Nat)),
    (mapKeys m).Nodup → (mapKeys (countNodesList cs m)).Nodup
  | [], m, h => h
  | c :: rest, m, h => by
    unfold countNodesList
    exact nodup_countNodesList rest _ (nodup_mapMerge (countNodes c) m h)

end

mutual

theorem mapPos_countNodes : ∀ (d : Drawable), mapPos (countNodes d)
  | .mk data cs => by
    unfold countNodes
    split_ifs with h1 h2
    · intro p hp
      cases hp
    · have hm : mapInc [] data.label = [(data.label, 1)] := rfl
      rw [hm]
      refine mapPos_countNodesList cs _ ?_
      intro p hp
      rcases List.mem_singleton.mp hp with rfl
      exact le_refl 1
    · exact mapPos_countNodesList cs [] (fun p hp => by cases hp)

theorem mapPos_countNodesList : ∀ (cs : List Drawable) (m : List (String × Nat)),
    mapPos m → mapPos (countNodesList cs m)
  | [], m, h => h
  | c :: rest, m, h => by
    unfold countNodesList
    exact mapPos_countNodesList rest _ (mapPos_mapMerge (countNodes c) m h (mapPos_countNodes c))

end

end STree

namespace STree

mutual

/-- `countNodes` computes, per label, the number of non-leaf nodes without
a truthy subscript in the whole (leaf-childless) tree. -/
theorem getD_countNodes : ∀ (d : Drawable) (k : String), leavesChildless d = true →
    (mapGet (countNodes d) k).getD 0 = specCountLabel d k
  | .mk data cs, k, hlc => by
    have hlc' : (!data.is_leaf || cs.isEmpty) = true ∧ leavesChildlessL cs = true := by
      unfold leavesChildless at hlc
      simp only [Bool.and_eq_true] at hlc
      exact hlc
    unfold specCountLabel
    unfold allNodes
    rw [List.countP_cons]
    cases h1 : data.is_leaf with
    | true =>
      have hempty : cs = [] := by
        rcases hlc' with ⟨ha, -⟩
        rw [h1] at ha
        cases cs with
        | nil => rfl
        | cons c cs' => simp [List.isEmpty] at ha
      subst hempty
      have hcn : countNodes (Drawable.mk data []) = [] := by
        unfold countNodes
        rw [if_pos h1]
      rw [hcn]
      simp [mapGet, allNodesL, Drawable.is_leaf, Drawable.data, h1]
    | false =>
      have hself : (! (Drawable.mk data cs).is_leaf
          && !jsTruthyOpt (Drawable.mk data cs).subscript
          && decide ((Drawable.mk data cs).label = k))
          = (!jsTruthyOpt data.subscript && decide (data.label = k)) := by
        simp [Drawable.is_leaf, Drawable.subscript, Drawable.label, Drawable.data, h1]
      rw [hself]
      cases h2 : jsTruthyOpt data.subscript with
      | false =>
        have hcn : countNodes (Drawable.mk data cs)
            = countNodesList cs (mapInc [] data.label) := by
          unfold countNodes
          rw [if_neg (by simp [h1]), if_pos (by simp [h2])]
        rw [hcn, getD_countNodesList cs _ k hlc'.2]
        have hm : mapInc [] data.label = [(data.label, 1)] := rfl
        rw [hm, mapGet_cons]
        by_cases hk : data.label = k
        · rw [if_pos hk]
          have hd : (!false && decide (data.label = k)) = true := by simp [hk]
          rw [hd, if_pos rfl]
          simp only [Option.getD_some]
          show 1 + specCountLabelL cs k = (allNodesL cs).countP _ + 1
          unfold specCountLabelL
          omega
        · rw [if_neg hk]
          have hd : (!false && decide (data.label = k)) = false := by simp [hk]
          rw [hd, if_neg (by simp)]
          show (mapGet [] k).getD 0 + specCountLabelL cs k = (allNodesL cs).countP _ + 0
          unfold specCountLabelL
          simp [mapGet]
      | true =>
        have hcn : countNodes (Drawable.mk data cs) = countNodesList cs [] := by
          unfold countNodes
          rw [if_neg (by simp [h1]), if_neg (by simp [h2])]
        rw [hcn, getD_countNodesList cs [] k hlc'.2]
        have hd : (!true && decide (data.label = k)) = false := by simp
        rw [hd, if_neg (by simp)]
        show (mapGet [] k).getD 0 + specCountLabelL cs k = (allNodesL cs).countP _ + 0
        unfold specCountLabelL
        simp [mapGet]

theorem getD_countNodesList : ∀ (cs : List Drawable) (m : List (String × Nat)) (k : String),
    leavesChildlessL cs = true →
    (mapGet (countNodesList cs m) k).getD 0 = (mapGet m k).getD 0 + specCountLabelL cs k
  | [], m, k, _ => by
    show (mapGet m k).getD 0 = (mapGet m k).getD 0 + (allNodesL []).countP _
    simp [allNodesL]
  | c :: rest, m, k, h => by
    have h' : leavesChildless c = true ∧ leavesChildlessL rest = true := by
      unfold leavesChildlessL at h
      simp only [Bool.and_eq_true] at h
      exact h
    unfold countNodesList
    rw [getD_countNodesList rest _ k h'.2,
      getD_mapMerge (countNodes c) m k (nodup_countNodes c),
      getD_countNodes c k h'.1]
    show _ = (mapGet m k).getD 0 + (allNodesL (c :: rest)).countP _
    unfold allNodesL
    rw [List.countP_append]
    unfold specCountLabel specCountLabelL
    omega

end

end STree

namespace STree

/-- Membership in the filtered key list of a well-formed count map is
exactly "count at least 2". -/
theorem any_filtered_keys : ∀ (m : List (String × Nat)) (l : String),
    (mapKeys m).Nodup → mapPos m →
    (((m.filter (fun p => !decide (p.2 = 1))).map Prod.fst).any (fun k => decide (k = l))
      = decide (2 ≤ (mapGet m l).getD 0))
  | [], l, _, _ => rfl
  | q :: rest, l, hnd, hpos => by
    have hnd' : (mapKeys rest).Nodup := by
      simp only [mapKeys, List.map_cons, List.nodup_cons] at hnd
      exact hnd.2
    have hq1 : q.1 ∉ mapKeys rest := by
      simp only [mapKeys, List.map_cons, List.nodup_cons] at hnd
      exact hnd.1
    have hpos' : mapPos rest := fun p hp => hpos p (List.mem_cons_of_mem _ hp)
    have hqv : 1 ≤ q.2 := hpos q (List.mem_cons_self _ _)
    rw [mapGet_cons]
    by_cases hql : q.1 = l
    · rw [if_pos hql]
      have hrest : ((rest.filter (fun p => !decide (p.2 = 1))).map Prod.fst).any
          (fun k => decide (k = l)) = false := by
        rw [Bool.eq_false_iff]
        intro htrue
        rcases List.any_eq_true.mp htrue with ⟨k, hk, hkl⟩
        rcases List.mem_map.mp hk with ⟨p, hp, hpk⟩
        have hpl : p.1 = l := hpk.trans (of_decide_eq_true hkl)
        have hpmem : p ∈ rest := (List.mem_filter.mp hp).1
        exact hq1 (hql ▸ List.mem_map.mpr ⟨p, hpmem, hpl⟩)
      by_cases hq2 : q.2 = 1
      · have hfil : (q :: rest).filter (fun p => !decide (p.2 = 1))
            = rest.filter (fun p => !decide (p.2 = 1)) := by
          rw [List.filter_cons, if_neg (by simp [hq2])]
        rw [hfil, hrest, hq2]
        rfl
      · have hfil : (q :: rest).filter (fun p => !decide (p.2 = 1))
            = q :: rest.filter (fun p => !decide (p.2 = 1)) := by
          rw [List.filter_cons, if_pos (by simp [hq2])]
        have h2q : 2 ≤ q.2 := by omega
        rw [hfil, List.map_cons, List.any_cons, hrest, Bool.or_false,
          Option.getD_some]
        rw [decide_eq_true hql, decide_eq_true h2q]
    · rw [if_neg hql]
      by_cases hq2 : q.2 = 1
      · have hfil : (q :: rest).filter (fun p => !decide (p.2 = 1))
            = rest.filter (fun p => !decide (p.2 = 1)) := by
          rw [List.filter_cons, if_neg (by simp [hq2])]
        rw [hfil]
        exact any_filtered_keys rest l hnd' hpos'
      · have hfil : (q :: rest).filter (fun p => !decide (p.2 = 1))
            = q :: rest.filter (fun p => !decide (p.2 = 1)) := by
          rw [List.filter_cons, if_pos (by simp [hq2])]
        rw [hfil, List.map_cons, List.any_cons]
        have hd : decide (q.1 = l) = false := by simp [hql]
        rw [hd, Bool.false_or]
        exact any_filtered_keys rest l hnd' hpos'

end STree

namespace STree

theorem assignSubscripts_eq_pos (data : DrawData) (cs : List Drawable)
    (keys : List String) (tally : List (String × Nat))
    (hc : (!data.is_leaf && !jsTruthyOpt data.subscript && !jsTruthyOpt data.superscript
      && keys.any (fun k => decide (k = data.label))) = true) :
    assignSubscripts (Drawable.mk data cs) keys tally =
      (Drawable.mk
        { data with
            subscript := some (toString ((mapGet (mapInc tally data.label) data.label).getD 0)) }
        (assignSubsList cs keys (mapInc tally data.label)).1,
       (assignSubsList cs keys (mapInc tally data.label)).2) := by
  unfold assignSubscripts
  rw [if_pos hc]

theorem assignSubscripts_eq_neg (data : DrawData) (cs : List Drawable)
    (keys : List String) (tally : List (String × Nat))
    (hc : ¬(!data.is_leaf && !jsTruthyOpt data.subscript && !jsTruthyOpt data.superscript
      && keys.any (fun k => decide (k = data.label))) = true) :
    assignSubscripts (Drawable.mk data cs) keys tally =
      (Drawable.mk data (assignSubsList cs keys tally).1,
       (assignSubsList cs keys tally).2) := by
  unfold assignSubscripts
  rw [if_neg hc]

theorem specAssign_eq_pos (data : DrawData) (cs : List Drawable)
    (dup : String → Bool) (tf : String → Nat)
    (hc : (!data.is_leaf && !jsTruthyOpt data.subscript && !jsTruthyOpt data.superscript
      && dup data.label) = true) :
    specAssign (Drawable.mk data cs) dup tf =
      (Drawable.mk
        { data with
            subscript := some (toString ((fun k => if k = data.label then tf data.label + 1 else tf k) data.label)) }
        (specAssignL cs dup
          (fun k => if k = data.label then tf data.label + 1 else tf k)).1,
       (specAssignL cs dup
          (fun k => if k = data.label then tf data.label + 1 else tf k)).2) := by
  unfold specAssign
  rw [if_pos hc]

theorem specAssign_eq_neg (data : DrawData) (cs : List Drawable)
    (dup : String → Bool) (tf : String → Nat)
    (hc : ¬(!data.is_leaf && !jsTruthyOpt data.subscript && !jsTruthyOpt data.superscript
      && dup data.label) = true) :
    specAssign (Drawable.mk data cs) dup tf =
      (Drawable.mk data (specAssignL cs dup tf).1, (specAssignL cs dup tf).2) := by
  unfold specAssign
  rw [if_neg hc]

mutual

/-- The implementation's assignment pass agrees with the spec-worded one,
given agreeing duplicate predicates and tallies. -/
theorem assignSubscripts_spec : ∀ (d : Drawable) (keys : List String) (dup : String → Bool)
    (tally : List (String × Nat)) (tf : String → Nat),
    (∀ l, keys.any (fun k => decide (k = l)) = dup l) →
    (∀ k, (mapGet tally k).getD 0 = tf k) →
    (assignSubscripts d keys tally).1 = (specAssign d dup tf).1 ∧
    (∀ k, (mapGet (assignSubscripts d keys tally).2 k).getD 0 = (specAssign d dup tf).2 k)
  | .mk data cs, keys, dup, tally, tf => fun hk ht => by
    by_cases hc : (!data.is_leaf && !jsTruthyOpt data.subscript
        && !jsTruthyOpt data.superscript
        && keys.any (fun k => decide (k = data.label))) = true
    · have hc' : (!data.is_leaf && !jsTruthyOpt data.subscript
          && !jsTruthyOpt data.superscript && dup data.label) = true := by
        rw [← hk data.label]
        exact hc
      have ht' : ∀ k2, (mapGet (mapInc tally data.label) k2).getD 0
          = (fun k => if k = data.label then tf data.label + 1 else tf k) k2 := by
        intro k2
        show (mapGet (mapSet tally data.label ((mapGet tally data.label).getD 0 + 1)) k2).getD 0
          = if k2 = data.label then tf data.label + 1 else tf k2
        rw [mapGet_mapSet]
        by_cases hk2 : k2 = data.label
        · rw [if_pos hk2, if_pos hk2]
          simp only [Option.getD_some]
          rw [ht data.label]
        · rw [if_neg hk2, if_neg hk2]
          exact ht k2
      have hrec := assignSubsList_spec cs keys dup (mapInc tally data.label)
        (fun k => if k = data.label then tf data.label + 1 else tf k) hk ht'
      constructor
      · rw [assignSubscripts_eq_pos data cs keys tally hc,
          specAssign_eq_pos data cs dup tf hc']
        show Drawable.mk _ (assignSubsList cs keys (mapInc tally data.label)).1
          = Drawable.mk _ (specAssignL cs dup
              (fun k => if k = data.label then tf data.label + 1 else tf k)).1
        rw [hrec.1, ht' data.label]
      · intro k2
        rw [assignSubscripts_eq_pos data cs keys tally hc,
          specAssign_eq_pos data cs dup tf hc']
        exact hrec.2 k2
    · have hc' : ¬(!data.is_leaf && !jsTruthyOpt data.subscript
          && !jsTruthyOpt data.superscript && dup data.label) = true := by
        rw [← hk data.label]
        exact hc
      have hrec := assignSubsList_spec cs keys dup tally tf hk ht
      constructor
      · rw [assignSubscripts_eq_neg data cs keys tally hc,
          specAssign_eq_neg data cs dup tf hc']
        show Drawable.mk data (assignSubsList cs keys tally).1
          = Drawable.mk data (specAssignL cs dup tf).1
        rw [hrec.1]
      · intro k2
        rw [assignSubscripts_eq_neg data cs keys tally hc,
          specAssign_eq_neg data cs dup tf hc']
        exact hrec.2 k2

theorem assignSubsList_spec : ∀ (cs : List Drawable) (keys : List String) (dup : String → Bool)
    (tally : List (String × Nat)) (tf : String → Nat),
    (∀ l, keys.any (fun k => decide (k = l)) = dup l) →
    (∀ k, (mapGet tally k).getD 0 = tf k) →
    (assignSubsList cs keys tally).1 = (specAssignL cs dup tf).1 ∧
    (∀ k, (mapGet (assignSubsList cs keys tally).2 k).getD 0 = (specAssignL cs dup tf).2 k)
  | [], keys, dup, tally, tf => fun _ ht => ⟨rfl, ht⟩
  | c :: rest, keys, dup, tally, tf => fun hk ht => by
    have h1 := assignSubscripts_spec c keys dup tally tf hk ht
    have h2 := assignSubsList_spec rest keys dup (assignSubscripts c keys tally).2
      ((specAssign c dup tf).2) hk h1.2
    constructor
    · show (assignSubscripts c keys tally).1
          :: (assignSubsList rest keys (assignSubscripts c keys tally).2).1
        = (specAssign c dup tf).1
          :: (specAssignL rest dup (specAssign c dup tf).2).1
      rw [h1.1, h2.1]
    · intro k2
      show (mapGet (assignSubsList rest keys (assignSubscripts c keys tally).2).2 k2).getD 0
        = (specAssignL rest dup (specAssign c dup tf).2).2 k2
      exact h2.2 k2

end

end STree

namespace STree

/-- A tree whose two internal "N" nodes differ only in that the first
carries a superscript: `countNodes` still counts both (it checks only
`subscript`), so the plain one is subscripted, while counting that also
ignores superscripted nodes sees a single occurrence and assigns
nothing. -/
def c4tree : Drawable :=
  .mk ⟨"R", none, none, 0, 0, false, [], [], none, 0, 0⟩
    [ .mk ⟨"N", none, some "x", 0, 1, false, [], [], none, 0, 0⟩
        [ .mk ⟨"a", none, none, 0, 2, true, [], [], none, 0, 0⟩ [] ],
      .mk ⟨"N", none, none, 0, 1, false, [], [], none, 0, 0⟩
        [ .mk ⟨"b", none, none, 0, 2, true, [], [], none, 0, 0⟩ [] ] ]

/-- C4 counterexample: on `c4tree` the code assigns subscript "1" to the
plain "N" node, while the claim's counting (ignoring subscripted AND
superscripted nodes) sees "N" only once and assigns no subscript at
all. -/
theorem c4_counterexample :
    ((calculateAutoSubscript c4tree).children.map Drawable.subscript
      = [none, some "1"]) ∧
    ((specAssign c4tree (fun l => decide (2 ≤ specCountLabelOrig c4tree l))
        (fun _ => 0)).1.children.map Drawable.subscript
      = [none, none]) := by
  constructor
  · decide
  · decide

/-- C4 (amended): auto-subscripting counts internal-node labels ignoring
only nodes that already carry a subscript (superscript-only nodes are
still counted); labels reaching count ≥ 2 then get sequential subscripts
in pre-order, skipping nodes that carry a subscript or superscript. -/
theorem c4_auto_subscript_amended (d : Drawable) (hlc : leavesChildless d = true) :
    calculateAutoSubscript d =
      (specAssign d (fun l => decide (2 ≤ specCountLabel d l)) (fun _ => 0)).1 := by
  have hany : ∀ l, (((countNodes d).filter (fun p => !decide (p.2 = 1))).map Prod.fst).any
      (fun k => decide (k = l)) = decide (2 ≤ specCountLabel d l) := by
    intro l
    rw [any_filtered_keys (countNodes d) l (nodup_countNodes d) (mapPos_countNodes d),
      getD_countNodes d l hlc]
  exact (assignSubscripts_spec d
    (((countNodes d).filter (fun p => !decide (p.2 = 1))).map Prod.fst)
    (fun l => decide (2 ≤ specCountLabel d l)) [] (fun _ => 0) hany (fun _ => rfl)).1

theorem c4_witness :
    leavesChildless c4tree = true ∧
    calculateAutoSubscript c4tree =
      (specAssign c4tree (fun l => decide (2 ≤ specCountLabel c4tree l)) (fun _ => 0)).1 :=
  ⟨by decide, c4_auto_subscript_amended c4tree (by decide)⟩

end STree
